import Mathlib

/-!
# Verification of the rustwall packet pipeline (src/src/utils.rs)

A shallow embedding of the firewall's packet pipeline: the IPv4 fragmenter
(`fragment_large_udp_packet`), the fragment reassembler
(`process_ipv4_fragment`), the policy callout (`process_udp`) and the
per-frame pipeline (`process_ipv4`, `process_ethernet`).

Bytes are modelled as `Nat` (well-formed inputs carry values `< 256`);
byte sequences as `List Nat`.  Machine-integer wraparound is made explicit
with `% 2^w` where the Rust code uses `u16` arithmetic.  The build-time
constants (`MTU_UDP`, `MAX_UDP_PACKET_SIZE`, ...) are parameters gathered in
a `Consts` structure, since the repository's `constants` module is not part
of the sources; the spec's constraints on them (e.g. `MTU_UDP` is a multiple
of 8) appear as hypotheses.

Wire-format accessors mirror the smoltcp accessors the source calls
(`ident()`, `frag_offset()`, `payload()`, ...), which read the RFC 791 /
RFC 768 header layouts the spec's "Wire compatibility" section fixes.
-/

namespace Rustwall

/-- Error taxonomy of the pipeline, from spec section 7 (the smoltcp error
values used by the source are folded into this taxonomy exactly as the spec
does: parse and checksum failures are `Malformed`). -/
inductive Error where
  | Malformed
  | Fragmented
  | FragmentSetFull
  | TooManyFragments
  | Unrecognized
  | Dropped
  deriving DecidableEq, Repr

/-- Build-time constants of the firewall (`constants` module, not in the
sources; values are parameters, constrained by the spec where it says so). -/
structure Consts where
  MTU_UDP : Nat
  MAX_UDP_PACKET_SIZE : Nat
  MAX_UDP_PAYLOAD_SIZE : Nat
  MAX_ENQUEUED_PACKETS : Nat
  STALE_THRESHOLD : Nat
  deriving Repr

/-- Byte `i` of a byte sequence (0 when out of range). -/
def byteAt (b : List Nat) (i : Nat) : Nat := b.getD i 0

/-- Big-endian 16-bit words of a byte sequence (odd tail padded with zero),
as used by the internet checksum. -/
def words16 : List Nat → List Nat
  | [] => []
  | [a] => [a * 256]
  | a :: b :: rest => (a * 256 + b) :: words16 rest

/-- Fold the carries of a 16-bit one's-complement sum (two folding steps,
enough for the header sizes at hand). -/
def foldCarry (n : Nat) : Nat :=
  let s := n % 65536 + n / 65536
  s % 65536 + s / 65536

/-- RFC 1071 internet checksum of a byte sequence. -/
def checksum16 (data : List Nat) : Nat :=
  65535 - foldCarry (words16 data).sum

/-! ## IPv4 header accessors (smoltcp `Ipv4Packet` field reads) -/

def ipv4Version (b : List Nat) : Nat := byteAt b 0 / 16

def ipv4HeaderLen (b : List Nat) : Nat := byteAt b 0 % 16 * 4

def ipv4TotalLen (b : List Nat) : Nat := byteAt b 2 * 256 + byteAt b 3

def ipv4Ident (b : List Nat) : Nat := byteAt b 4 * 256 + byteAt b 5

def ipv4DontFrag (b : List Nat) : Bool := byteAt b 6 / 64 % 2 = 1

def ipv4MoreFrags (b : List Nat) : Bool := byteAt b 6 / 32 % 2 = 1

/-- The raw 13-bit fragment-offset field. -/
def ipv4FragField (b : List Nat) : Nat := byteAt b 6 % 32 * 256 + byteAt b 7

/-- `frag_offset()`: the fragment offset in bytes (field times 8). -/
def ipv4FragOffset (b : List Nat) : Nat := ipv4FragField b * 8

def ipv4Protocol (b : List Nat) : Nat := byteAt b 9

def ipv4SrcAddr (b : List Nat) : Nat :=
  byteAt b 12 * 16777216 + byteAt b 13 * 65536 + byteAt b 14 * 256 + byteAt b 15

def ipv4DstAddr (b : List Nat) : Nat :=
  byteAt b 16 * 16777216 + byteAt b 17 * 65536 + byteAt b 18 * 256 + byteAt b 19

/-- `payload()`: the bytes between the header and the total length. -/
def ipv4Payload (b : List Nat) : List Nat :=
  (b.drop (ipv4HeaderLen b)).take (ipv4TotalLen b - ipv4HeaderLen b)

/-- `Ipv4Packet::new_checked` length validation: a 20-byte-or-more header
that fits inside the buffer together with its declared total length. -/
def ipv4Valid (b : List Nat) : Bool :=
  20 ≤ b.length ∧ 20 ≤ ipv4HeaderLen b ∧ ipv4HeaderLen b ≤ ipv4TotalLen b ∧
    ipv4TotalLen b ≤ b.length

/-- `verify_checksum`: the one's-complement sum over the header folds to
`0xffff`. -/
def ipv4ChecksumOk (b : List Nat) : Bool :=
  foldCarry (words16 (b.take (ipv4HeaderLen b))).sum = 65535

/-- `set_total_len` on a raw buffer: rewrite header bytes 2 and 3. -/
def setTotalLenBytes (b : List Nat) (t : Nat) : List Nat :=
  (b.set 2 (t / 256 % 256)).set 3 (t % 256)

/-- `fill_checksum` on a raw buffer: zero the checksum field, compute the
internet checksum over the header, write it back into bytes 10 and 11. -/
def fillIpv4Checksum (b : List Nat) : List Nat :=
  let hl := ipv4HeaderLen b
  let ck := checksum16 (((b.set 10 0).set 11 0).take hl)
  (b.set 10 (ck / 256 % 256)).set 11 (ck % 256)

/-! ## Structural IPv4 packets built by the fragmenter

`fragment_large_udp_packet` builds fresh packets with `Ipv4Repr::emit`
followed by `set_ident` / `set_frag_offset` / `set_more_frags` /
`set_dont_frag` / `fill_checksum`.  Such a packet is represented
structurally; `Ipv4Packet.toBytes` renders the RFC 791 wire bytes. -/

structure Ipv4Packet where
  ident : Nat
  /-- the raw 13-bit fragment-offset field, as `set_frag_offset` stores it
  (`value / 8`, truncated to 13 bits) -/
  frag_field : Nat
  more_frags : Bool
  dont_frag : Bool
  hop_limit : Nat
  protocol : Nat
  src_addr : Nat
  dst_addr : Nat
  payload : List Nat
  deriving DecidableEq, Repr

/-- The byte offset `frag_offset()` reads back. -/
def Ipv4Packet.frag_offset (p : Ipv4Packet) : Nat := p.frag_field * 8

/-- `total_len` as emitted: 20-byte header plus payload. -/
def Ipv4Packet.total_len (p : Ipv4Packet) : Nat := 20 + p.payload.length

/-- Modelled from the spec: `Ipv4Repr::emit` of the smoltcp fork (not among
the sources).  Per spec section 4.3, an emitted packet has a plain 20-byte
header, `hop_limit = 64`, the given protocol and addresses, and — for the
unfragmented case — MF=0, offset=0, DF=0; `ident` is 0 until `set_ident`. -/
def Ipv4Repr.emit (src dst protocol hop : Nat) (payload : List Nat) : Ipv4Packet :=
  { ident := 0, frag_field := 0, more_frags := false, dont_frag := false,
    hop_limit := hop, protocol := protocol, src_addr := src, dst_addr := dst,
    payload := payload }

/-- `set_frag_offset value` stores `value / 8` in the 13-bit field. -/
def Ipv4Packet.set_frag_offset (p : Ipv4Packet) (value : Nat) : Ipv4Packet :=
  { p with frag_field := value / 8 % 8192 }

def Ipv4Packet.set_ident (p : Ipv4Packet) (v : Nat) : Ipv4Packet :=
  { p with ident := v % 65536 }

def Ipv4Packet.set_more_frags (p : Ipv4Packet) (v : Bool) : Ipv4Packet :=
  { p with more_frags := v }

def Ipv4Packet.set_dont_frag (p : Ipv4Packet) (v : Bool) : Ipv4Packet :=
  { p with dont_frag := v }

/-- IP protocol number of UDP. -/
def protoUdp : Nat := 17
/-- IP protocol number of ICMP. -/
def protoIcmp : Nat := 1
/-- IP protocol number of IGMP. -/
def protoIgmp : Nat := 2

/-- Header bytes of a structural packet before `fill_checksum` (checksum
field zero), RFC 791 layout: version/IHL `0x45`, zero DSCP, total length,
identification, flags and fragment field, hop limit, protocol, addresses. -/
def Ipv4Packet.rawHeader (p : Ipv4Packet) : List Nat :=
  [69, 0,
   p.total_len / 256 % 256, p.total_len % 256,
   p.ident / 256 % 256, p.ident % 256,
   (if p.dont_frag then 64 else 0) + (if p.more_frags then 32 else 0) +
     p.frag_field / 256, p.frag_field % 256,
   p.hop_limit % 256, p.protocol % 256,
   0, 0,
   p.src_addr / 16777216 % 256, p.src_addr / 65536 % 256,
     p.src_addr / 256 % 256, p.src_addr % 256,
   p.dst_addr / 16777216 % 256, p.dst_addr / 65536 % 256,
     p.dst_addr / 256 % 256, p.dst_addr % 256]

/-- Wire bytes of a structural packet: emitted header, payload, and the
`fill_checksum` pass the source ends each build with. -/
def Ipv4Packet.toBytes (p : Ipv4Packet) : List Nat :=
  fillIpv4Checksum (p.rawHeader ++ p.payload)

/-- The emitted header after `fill_checksum`: `rawHeader` with the computed
checksum written into bytes 10 and 11. -/
def Ipv4Packet.ckHeader (p : Ipv4Packet) : List Nat :=
  (p.rawHeader.set 10 (checksum16 p.rawHeader / 256 % 256)).set 11
    (checksum16 p.rawHeader % 256)

/-- Start of the buffer region fragment `j` fills during reassembly: the
offset-0 fragment starts at 0 (it brings its header), fragment `j` at
`20 + j * MTU`. -/
def fragRegionStart (MTU j : Nat) : Nat := if j = 0 then 0 else 20 + j * MTU

/-- End (exclusive) of the buffer region fragment `j` fills. -/
def fragRegionStop (MTU len j : Nat) : Nat := 20 + min ((j + 1) * MTU) len

/-- The filled range `(offset, length)` fragment `j` records. -/
def fragRegion (MTU len j : Nat) : Nat × Nat :=
  (fragRegionStart MTU j, fragRegionStop MTU len j - fragRegionStart MTU j)

/-- Byte `i` of the fully assembled datagram: the first fragment's emitted
header, then the UDP packet. -/
def assembledByteAt (hdr udp : List Nat) (i : Nat) : Nat :=
  if i < 20 then byteAt hdr i else byteAt udp (i - 20)

/-! ## The fragmenter (`fragment_large_udp_packet`, utils.rs lines 368-501) -/

/-- One middle or final fragment of the fragmenter's `while` loop and the
trailing "last packet" block.  `start_len`, `fragment_offset` and
`remaining_len` are the loop state at the head of the `while` check
(`fragment_offset` wraps as the Rust `u16` does). -/
def fragmentRest (MTU src dst pid : Nat) (udp : List Nat) :
    Nat → Nat → Nat → List Ipv4Packet
  | start_len, fragment_offset, remaining_len =>
    if h : MTU < remaining_len ∧ 0 < MTU then
      -- middle packet: indices updated first, then the packet is built
      let p := ((((Ipv4Repr.emit src dst protoUdp 64
            ((udp.drop (start_len + MTU)).take MTU)).set_ident pid).set_frag_offset
              ((fragment_offset + MTU) % 65536)).set_more_frags true).set_dont_frag false
      p :: fragmentRest MTU src dst pid udp (start_len + MTU)
        ((fragment_offset + MTU) % 65536) (remaining_len - MTU)
    else
      -- last packet
      [((((Ipv4Repr.emit src dst protoUdp 64
            (udp.drop (start_len + MTU))).set_ident pid).set_frag_offset
              ((fragment_offset + MTU) % 65536)).set_more_frags false).set_dont_frag false]
  termination_by _ _ remaining_len => remaining_len
  decreasing_by exact Nat.sub_lt (Nat.lt_of_lt_of_le h.2 (Nat.le_of_lt h.1)) h.2

/-- `fragment_large_udp_packet`: split a UDP packet into MTU-sized IPv4
fragments.  `fresh` stands for the value `get_pseudorandom_packet_id()`
would return on this call. -/
def fragment_large_udp_packet (c : Consts) (udp : List Nat)
    (src dst packet_id fresh : Nat) : List Ipv4Packet :=
  if udp.length < c.MTU_UDP then
    [(Ipv4Repr.emit src dst protoUdp 64 udp).set_ident packet_id]
  else
    let pid := if packet_id = 0 then fresh else packet_id
    let first := ((((Ipv4Repr.emit src dst protoUdp 64
        (udp.take c.MTU_UDP)).set_ident pid).set_frag_offset 0).set_more_frags
          true).set_dont_frag false
    first :: fragmentRest c.MTU_UDP src dst pid udp 0 0 (udp.length - c.MTU_UDP)

/-! ### Closed form of the fragment list -/

/-- The fragment whose payload starts at byte `t` of the UDP packet: a
middle fragment when at least `MTU` payload bytes follow `t + MTU`, the
final fragment otherwise. -/
def fragAt (MTU src dst pid : Nat) (udp : List Nat) (t : Nat) : Ipv4Packet :=
  if t + MTU < udp.length then
    ((((Ipv4Repr.emit src dst protoUdp 64
        ((udp.drop t).take MTU)).set_ident pid).set_frag_offset
          (t % 65536)).set_more_frags true).set_dont_frag false
  else
    ((((Ipv4Repr.emit src dst protoUdp 64
        (udp.drop t)).set_ident pid).set_frag_offset
          (t % 65536)).set_more_frags false).set_dont_frag false

/-- Concrete constants used to instantiate theorems on sample inputs:
`MTU_UDP = 8`, packet-size bounds 100, queue bound 10, staleness 5. -/
def cEx : Consts := ⟨8, 100, 100, 10, 5⟩

/-- A concrete 20-byte UDP packet used to instantiate theorems. -/
def udpEx : List Nat := List.range 20

/-- Concrete valid one-fragment datagram for witnesses: MF=0, offset 0,
protocol UDP, 20-byte header, 4-byte payload. -/
def pEx : List Nat :=
  [69, 0, 0, 24, 0, 1, 0, 0, 64, 17, 0, 0, 0, 0, 0, 1, 0, 0, 0, 2, 9, 9, 9, 9]

/-- Concrete UDP packet for witnesses: ports 7 and 9, length 12, checksum
0 (RFC 768 "no checksum"), 4-byte payload. -/
def uEx : List Nat := [0, 7, 0, 9, 0, 12, 0, 0, 1, 2, 3, 4]

/-- A concrete policy function for witnesses: accept 4 bytes unchanged. -/
def fwEx : Nat → Nat → Nat → Nat → Nat → List Nat → Nat → Int × List Nat :=
  fun _ _ _ _ _ buf _ => (4, buf)

/-- A concrete Ethernet frame carrying a fragmented ICMP packet (MF=1,
offset 8, protocol 1, valid header checksum). -/
def frameIcmpFrag : List Nat :=
  [255, 255, 255, 255, 255, 255, 1, 1, 1, 1, 1, 1, 8, 0,
   69, 0, 0, 24, 0, 5, 32, 1, 64, 1, 90, 221, 0, 0, 0, 1, 0, 0, 0, 2,
   7, 7, 7, 7]

instance : Inhabited Ipv4Packet :=
  ⟨{ ident := 0, frag_field := 0, more_frags := false, dont_frag := false,
     hop_limit := 0, protocol := 0, src_addr := 0, dst_addr := 0, payload := [] }⟩

/-! ## Fragment reassembly (`process_ipv4_fragment`, utils.rs lines 667-749)

The per-slot operations live in the project's smoltcp fork
(`FragmentedPacket` / `FragmentSet`), which is not among the sources; they
are modelled from the spec (sections 3 and 4.2), consistently with how the
source uses them (`is_empty`/`start`/`set_total_len`/`add`/
`check_contig_range`/`front`/`get_buffer`/`reset`). -/

/-- Modelled from the spec: one reassembly slot (spec section 3,
`FragmentEntry`): fixed-capacity buffer, current key, `total_len` once the
final fragment arrived, the filled byte ranges, a last-touched timestamp. -/
structure FragmentedPacket where
  key : Option (Nat × Nat × Nat)
  buffer : List Nat
  ranges : List (Nat × Nat)
  total_len : Option Nat
  last_used : Nat
  deriving DecidableEq, Repr

instance : Inhabited FragmentedPacket := ⟨⟨none, [], [], none, 0⟩⟩

/-- A slot is empty when it holds no key. -/
def FragmentedPacket.is_empty (e : FragmentedPacket) : Bool := e.key.isNone

/-- Modelled from the spec: `start` marks the slot started with the
arriving key (spec 4.2, assembly step 1). -/
def FragmentedPacket.start (e : FragmentedPacket) (ident src dst : Nat) :
    FragmentedPacket :=
  { e with key := some (ident, src, dst), ranges := [], total_len := none }

def FragmentedPacket.set_total_len (e : FragmentedPacket) (t : Nat) :
    FragmentedPacket :=
  { e with total_len := some t }

/-- Modelled from the spec: `reset` returns the slot to the empty state
(buffer bytes become stale; key, ranges and total length are cleared). -/
def FragmentedPacket.reset (e : FragmentedPacket) : FragmentedPacket :=
  { e with key := none, ranges := [], total_len := none }

/-- Overwrite the bytes of `b` from `off` on with `data`. -/
def writeAt (b : List Nat) (off : Nat) (data : List Nat) : List Nat :=
  b.take off ++ data ++ b.drop (off + data.length)

/-- Modelled from the spec: `FragmentedPacket::add` (spec 4.2, assembly
step 2).  The fragment's payload is copied into the reassembly buffer at
its byte offset past the header; the offset-0 fragment also contributes its
header ("the first fragment's header is used for reassembly").  The filled
range is recorded and the timestamp refreshed; writing past the buffer's
capacity fails (the caller resets and reports `TooManyFragments`). -/
def FragmentedPacket.add (e : FragmentedPacket)
    (header_len offset payload_len : Nat) (bytes : List Nat) (ts : Nat) :
    Option FragmentedPacket :=
  let dstOff := if offset = 0 then 0 else header_len + offset
  let data := if offset = 0 then bytes.take (header_len + payload_len)
              else (bytes.drop header_len).take payload_len
  if dstOff + data.length ≤ e.buffer.length then
    some { e with buffer := writeAt e.buffer dstOff data,
                  ranges := e.ranges ++ [(dstOff, data.length)],
                  last_used := ts }
  else none

/-- Modelled from the spec: the completion test — `total_len` is known and
the filled ranges cover `[0, total_len)` (spec invariant 2). -/
def FragmentedPacket.check_contig_range (e : FragmentedPacket) : Bool :=
  match e.total_len with
  | none => false
  | some t => (List.range t).all fun i => e.ranges.any fun r =>
      decide (r.1 ≤ i) && decide (i < r.1 + r.2)

/-- `front()`: the assembled length, once known. -/
def FragmentedPacket.front (e : FragmentedPacket) : Option Nat := e.total_len

/-- A reassembly table: `SUPPORTED_FRAGMENTS` slots. -/
abbrev FragmentSet := List FragmentedPacket

/-- Modelled from the spec: `FragmentSet::get_packet` lookup policy (spec
4.2): (a) the entry already holding this key, else (b) an empty entry, else
(c) an entry whose timestamp is older than the staleness threshold — reset
and reused —, else none (`FragmentSetFull` at the caller). -/
def FragmentSet.get_packet (fs : FragmentSet) (ident src dst ts stale : Nat) :
    Option (Nat × FragmentSet) :=
  match fs.findIdx? (fun e => decide (e.key = some (ident, src, dst))) with
  | some i => some (i, fs)
  | none =>
    match fs.findIdx? (fun e => e.is_empty) with
    | some i => some (i, fs)
    | none =>
      match fs.findIdx? (fun e => decide (e.last_used + stale < ts)) with
      | some i => some (i, fs.set i (fs.getD i default).reset)
      | none => none

/-- The total length recorded when the final fragment (MF=0) arrives:
`frag_offset() + total_len()` of that fragment (utils.rs lines 694-699). -/
def fragmentTotalLen (p : List Nat) : Nat := ipv4FragOffset p + ipv4TotalLen p

/-- `process_ipv4_fragment` (utils.rs lines 667-749): feed one IPv4
fragment (raw bytes of the already length-checked, shaved packet) into the
reassembly table.  Returns the assembled datagram once the filled ranges
cover it completely, `none` while more fragments are needed, or an error —
together with the updated table. -/
def process_ipv4_fragment (c : Consts) (p : List Nat) (ts : Nat)
    (fragments : FragmentSet) :
    Except Error (Option (List Nat)) × FragmentSet :=
  match FragmentSet.get_packet fragments (ipv4Ident p) (ipv4SrcAddr p)
      (ipv4DstAddr p) ts c.STALE_THRESHOLD with
  | none => (.error .FragmentSetFull, fragments)
  | some (i, fs₁) =>
    let e₀ := fs₁.getD i default
    let e₁ := if e₀.is_empty then
        e₀.start (ipv4Ident p) (ipv4SrcAddr p) (ipv4DstAddr p)
      else e₀
    let e₂ := if ipv4MoreFrags p then e₁
      else e₁.set_total_len (fragmentTotalLen p)
    match e₂.add (ipv4HeaderLen p) (ipv4FragOffset p) (ipv4Payload p).length p ts with
    | none => (.error .TooManyFragments, fs₁.set i e₂.reset)
    | some e₃ =>
      if e₃.check_contig_range then
        match e₃.front with
        | none => (.ok none, fs₁.set i e₃)
        | some front =>
          if ipv4Valid (e₃.buffer.take front) then
            let buf := fillIpv4Checksum (setTotalLenBytes e₃.buffer (front % 65536))
            (.ok (some (buf.take front)), fs₁.set i ({ e₃ with buffer := buf }).reset)
          else (.error .Malformed, fs₁.set i e₃)
      else (.ok none, fs₁.set i e₃)

/-- A fresh reassembly slot with an all-zero buffer of the given capacity
(`FragmentedPacket::new(vec![0; MAX_REASSEMBLED_FRAGMENT_SIZE])`). -/
def emptyEntry (cap : Nat) : FragmentedPacket :=
  ⟨none, List.replicate cap 0, [], none, 0⟩

/-- Feed a list of fragments one call at a time (monotonic timestamps),
returning the last call's result; stop early on an error. -/
def processFragments (c : Consts) :
    List (List Nat) → FragmentSet → Nat →
      Except Error (Option (List Nat)) × FragmentSet
  | [], fs, _ => (.ok none, fs)
  | p :: ps, fs, t =>
    match process_ipv4_fragment c p t fs with
    | (.error e, fs') => (.error e, fs')
    | (.ok r, fs') =>
      match ps with
      | [] => (.ok r, fs')
      | _ :: _ => processFragments c ps fs' (t + 1)

/-! ## UDP and the policy callout (`process_udp`, utils.rs lines 759-860) -/

def udpSrcPort (b : List Nat) : Nat := byteAt b 0 * 256 + byteAt b 1

def udpDstPort (b : List Nat) : Nat := byteAt b 2 * 256 + byteAt b 3

def udpLen (b : List Nat) : Nat := byteAt b 4 * 256 + byteAt b 5

def udpChecksumField (b : List Nat) : Nat := byteAt b 6 * 256 + byteAt b 7

/-- `UdpPacket::new_checked` length validation: an 8-byte header and a
length field that fits the buffer. -/
def udpValid (b : List Nat) : Bool :=
  8 ≤ b.length ∧ 8 ≤ udpLen b ∧ udpLen b ≤ b.length

/-- `payload()`: the bytes between the UDP header and the length field. -/
def udpPayload (b : List Nat) : List Nat := (b.drop 8).take (udpLen b - 8)

/-- The IPv4 pseudo-header over which the UDP checksum is computed. -/
def pseudoHeader (src dst len : Nat) : List Nat :=
  [src / 16777216 % 256, src / 65536 % 256, src / 256 % 256, src % 256,
   dst / 16777216 % 256, dst / 65536 % 256, dst / 256 % 256, dst % 256,
   0, 17, len / 256 % 256, len % 256]

/-- Modelled from the spec: `UdpRepr::parse`'s checksum verification (smoltcp,
not among the sources) — "bad UDP checksum" is a parse failure (spec 4.1);
RFC 768's all-zero "no checksum" rule applies. -/
def udpChecksumOk (src dst : Nat) (b : List Nat) : Bool :=
  udpChecksumField b = 0 ∨
    foldCarry (words16 (pseudoHeader src dst (udpLen b) ++
      b.take (udpLen b))).sum = 65535

/-- `UdpRepr::emit` followed by `fill_checksum`: an 8-byte header with the
given ports, length `8 + payload.length`, and the checksum computed over
the IPv4 pseudo-header (a computed zero is transmitted as `0xffff`). -/
def udpEmit (sp dp : Nat) (payload : List Nat) (src dst : Nat) : List Nat :=
  let len := 8 + payload.length
  let base := [sp / 256 % 256, sp % 256, dp / 256 % 256, dp % 256,
               len / 256 % 256, len % 256, 0, 0] ++ payload
  let ck := checksum16 (pseudoHeader src dst len ++ base)
  let ck := if ck = 0 then 65535 else ck
  (base.set 6 (ck / 256 % 256)).set 7 (ck % 256)

/-- Length of the *initialized* portion of the byte vector handed to the
policy callout: the source builds it with
`Vec::with_capacity(MAX_UDP_PAYLOAD_SIZE)` then
`extend_from_slice(udp_packet.payload())` (utils.rs lines 789-791), so
exactly the input payload's bytes are initialized; the rest of the
capacity is only reserved. -/
def calloutBufferLen (ip_payload : List Nat) : Nat :=
  (udpPayload ip_payload).length

/-- The external policy callout: arguments (src_addr, src_port, dst_addr,
dst_port, payload_len, payload buffer, capacity); result: the i32 verdict
and the buffer contents after the call (the callee may rewrite them). -/
abbrev FirewallFn : Type :=
  Nat → Nat → Nat → Nat → Nat → List Nat → Nat → Int × List Nat

/-- `process_udp` (utils.rs lines 759-860): parse and checksum-check the
UDP packet, hand the payload to the external firewall, and either rebuild
a UDP packet from the first `payload_len` buffer bytes with a fresh
pseudo-header checksum, or drop. -/
def process_udp (c : Consts) (srcA dstA : Nat) (ip_payload : List Nat)
    (fw : FirewallFn) : Except Error (List Nat) :=
  if udpValid ip_payload then
    if udpChecksumOk srcA dstA ip_payload then
      let res := fw srcA (udpSrcPort ip_payload) dstA (udpDstPort ip_payload)
        (calloutBufferLen ip_payload) (udpPayload ip_payload)
        c.MAX_UDP_PAYLOAD_SIZE
      let payload_len := res.1
      let udp_data := res.2.take payload_len.toNat
      if 0 < payload_len ∧ payload_len.toNat ≤ c.MAX_UDP_PACKET_SIZE then
        let out := udpEmit (udpSrcPort ip_payload) (udpDstPort ip_payload)
          udp_data srcA dstA
        if udpValid out then .ok out else .error .Malformed
      else .error .Dropped
    else .error .Malformed
  else .error .Malformed

/-! ## Ethernet and the per-frame pipeline
(`process_ethernet` / `process_ipv4`, utils.rs lines 295-661) -/

/-- Destination MAC: the first six bytes of the frame. -/
def ethDst (frame : List Nat) : List Nat := frame.take 6

/-- EtherType: big-endian bytes 12-13. -/
def ethertype (frame : List Nat) : Nat := byteAt frame 12 * 256 + byteAt frame 13

/-- `EthernetFrame::new_checked`: the 14-byte Ethernet II header fits. -/
def ethValid (frame : List Nat) : Bool := 14 ≤ frame.length

/-- `EthernetAddress::is_broadcast`: all six bytes 0xff. -/
def isBroadcastMac (mac : List Nat) : Bool :=
  mac = [255, 255, 255, 255, 255, 255]

/-- `EthernetAddress::is_multicast`: lowest bit of the first byte set. -/
def isMulticastMac (mac : List Nat) : Bool := byteAt mac 0 % 2 = 1

/-- `shave_crc_from_ipv4` (utils.rs lines 505-520): when the IPv4 payload
plus header leaves exactly `ETH_CRC_LEN = 4` trailing bytes, re-parse with
them removed (suspected Ethernet FCS); otherwise re-parse the buffer as
is. -/
def shave_crc_from_ipv4 (b : List Nat) : Except Error (List Nat) :=
  if (ipv4Payload b).length + ipv4HeaderLen b + 4 = b.length then
    let s := b.take (b.length - 4)
    if ipv4Valid s then .ok s else .error .Malformed
  else
    if ipv4Valid b then .ok b else .error .Malformed

/-- The tail of `process_ipv4` after fragment handling (utils.rs lines
581-660): re-parse (`Ipv4Repr::parse` — modelled from the spec: version,
header and checksum checks; spec 4.5 then dispatches on the protocol of
the assembled or original datagram), pass ICMP/IGMP through unchanged,
run UDP through the policy and the fragmenter, reject other protocols. -/
def process_ipv4_after (c : Consts) (eth_packet eth_payload : List Nat)
    (fragments : FragmentSet) (fw : FirewallFn) (fresh : Nat) :
    Except Error (List (List Nat)) × FragmentSet :=
  if ¬ (ipv4Valid eth_payload = true) then (.error .Malformed, fragments)
  else
    match shave_crc_from_ipv4 eth_payload with
    | .error e => (.error e, fragments)
    | .ok v2 =>
      if ¬ (ipv4Version v2 = 4 ∧ ipv4ChecksumOk v2 = true) then
        (.error .Malformed, fragments)
      else if ipv4Protocol v2 = protoIcmp ∨ ipv4Protocol v2 = protoIgmp then
        -- passthrough: no packets produced, the original frame is repushed
        (.ok [eth_packet], fragments)
      else if ipv4Protocol v2 = protoUdp then
        match process_udp c (ipv4SrcAddr v2) (ipv4DstAddr v2)
            (ipv4Payload v2) fw with
        | .error e => (.error e, fragments)
        | .ok udp_packet =>
          let ipv4_packets := fragment_large_udp_packet c udp_packet
            (ipv4SrcAddr v2) (ipv4DstAddr v2) (ipv4Ident v2) fresh
          (.ok (ipv4_packets.map fun p => eth_packet.take 14 ++ p.toBytes),
            fragments)
      else (.error .Unrecognized, fragments)

/-- `process_ipv4` (utils.rs lines 542-661): parse the frame's IPv4 packet
(with CRC shave), run fragmented UDP through reassembly (`Fragmented`
error while incomplete), then process the assembled or original datagram. -/
def process_ipv4 (c : Consts) (eth_packet : List Nat) (fragments : FragmentSet)
    (fw : FirewallFn) (ts fresh : Nat) :
    Except Error (List (List Nat)) × FragmentSet :=
  let eth_payload := eth_packet.drop 14
  if ¬ (ethValid eth_packet = true) then (.error .Malformed, fragments)
  else if ¬ (ipv4Valid eth_payload = true) then (.error .Malformed, fragments)
  else
    match shave_crc_from_ipv4 eth_payload with
    | .error e => (.error e, fragments)
    | .ok v =>
      if (ipv4MoreFrags v = true ∨ 0 < ipv4FragOffset v) ∧
          ipv4Protocol v = protoUdp then
        match process_ipv4_fragment c v ts fragments with
        | (.error e, fs') => (.error e, fs')
        | (.ok none, fs') => (.error .Fragmented, fs')
        | (.ok (some asm), fs') => process_ipv4_after c eth_packet asm fs' fw fresh
      else process_ipv4_after c eth_packet eth_payload fragments fw fresh

/-- The enqueue loop of `process_ethernet` (utils.rs lines 334-339): push
produced frames while the buffer is below `MAX_ENQUEUED_PACKETS`; excess is
silently discarded. -/
def enqueueLoop (maxq : Nat) : List (List Nat) → List (List Nat) → List (List Nat)
  | [], buffer => buffer
  | p :: ps, buffer =>
    if buffer.length < maxq then enqueueLoop maxq ps (buffer ++ [p]) else buffer

/-- `process_ethernet` (utils.rs lines 295-363): parse the Ethernet frame,
apply the MAC filter, dispatch on EtherType — IPv4 into the sub-pipeline
(produced frames enqueued up to capacity), ARP passed through (enqueued if
below capacity), IPv6 and unknown types silently dropped.  Returns the
result together with the updated queue and fragment table. -/
def process_ethernet (c : Consts) (frame : List Nat)
    (packet_buffer : List (List Nat)) (fragments : FragmentSet)
    (fw : FirewallFn) (check_mac : Bool) (local_mac : List Nat)
    (ts fresh : Nat) :
    Except Error Unit × List (List Nat) × FragmentSet :=
  if ¬ (ethValid frame = true) then (.error .Malformed, packet_buffer, fragments)
  else if check_mac = true ∧ ¬ (isBroadcastMac (ethDst frame) = true) ∧
      ¬ (isMulticastMac (ethDst frame) = true) ∧ ethDst frame ≠ local_mac then
    (.ok (), packet_buffer, fragments)
  else if ethertype frame = 0x0800 then
    match process_ipv4 c frame fragments fw ts fresh with
    | (.ok packets, fs') =>
      (.ok (), enqueueLoop c.MAX_ENQUEUED_PACKETS packets packet_buffer, fs')
    | (.error e, fs') => (.error e, packet_buffer, fs')
  else if ethertype frame = 0x86DD then (.ok (), packet_buffer, fragments)
  else if ethertype frame = 0x0806 then
    (.ok (), (if packet_buffer.length < c.MAX_ENQUEUED_PACKETS then
      packet_buffer ++ [frame] else packet_buffer), fragments)
  else (.ok (), packet_buffer, fragments)

theorem fragmentRest_step (MTU src dst pid : Nat) (udp : List Nat) (s o r : Nat)
    (h : MTU < r ∧ 0 < MTU) :
    fragmentRest MTU src dst pid udp s o r =
      ((((Ipv4Repr.emit src dst protoUdp 64
          ((udp.drop (s + MTU)).take MTU)).set_ident pid).set_frag_offset
            ((o + MTU) % 65536)).set_more_frags true).set_dont_frag false
        :: fragmentRest MTU src dst pid udp (s + MTU) ((o + MTU) % 65536) (r - MTU) := by
  rw [fragmentRest, dif_pos h]

theorem fragmentRest_last (MTU src dst pid : Nat) (udp : List Nat) (s o r : Nat)
    (h : ¬ (MTU < r ∧ 0 < MTU)) :
    fragmentRest MTU src dst pid udp s o r =
      [((((Ipv4Repr.emit src dst protoUdp 64
          (udp.drop (s + MTU))).set_ident pid).set_frag_offset
            ((o + MTU) % 65536)).set_more_frags false).set_dont_frag false] := by
  rw [fragmentRest, dif_neg h]

theorem fragmentRest_ne_nil (MTU src dst pid : Nat) (udp : List Nat)
    (s o r : Nat) : fragmentRest MTU src dst pid udp s o r ≠ [] := by
  rw [fragmentRest]
  split <;> simp

theorem fragmentRest_getElem (MTU src dst pid : Nat) (udp : List Nat)
    (hlen : udp.length ≤ 65535) (hM : 0 < MTU) :
    ∀ r s i, r = udp.length - (s + MTU) → 1 ≤ r →
      i < (fragmentRest MTU src dst pid udp s s r).length →
      (fragmentRest MTU src dst pid udp s s r)[i]? =
        some (fragAt MTU src dst pid udp (s + (i + 1) * MTU)) := by
  intro r
  induction r using Nat.strong_induction_on with
  | _ r ih =>
    intro s i hr h1 hh
    have hs : s + MTU < udp.length := by omega
    rw [fragmentRest] at hh ⊢
    by_cases hc : MTU < r ∧ 0 < MTU
    · simp only [dif_pos hc] at hh ⊢
      match i with
      | 0 =>
        have ht : s + (0 + 1) * MTU = s + MTU := by ring
        simp only [List.getElem?_cons_zero, fragAt, ht,
          if_pos (show s + MTU + MTU < udp.length by omega),
          Nat.mod_eq_of_lt (show s + MTU < 65536 by omega)]
      | i + 1 =>
        simp only [List.getElem?_cons_succ]
        rw [Nat.mod_eq_of_lt (show s + MTU < 65536 by omega)] at hh ⊢
        have hh' : i < (fragmentRest MTU src dst pid udp (s + MTU) (s + MTU)
            (r - MTU)).length := by
          simp only [List.length_cons] at hh
          omega
        rw [ih (r - MTU) (by omega) (s + MTU) i (by omega) (by omega) hh']
        congr 2
        ring
    · simp only [dif_neg hc, List.length_singleton] at hh ⊢
      have hrM : r ≤ MTU := by omega
      match i with
      | 0 =>
        have ht : s + (0 + 1) * MTU = s + MTU := by ring
        simp only [List.getElem?_cons_zero, fragAt, ht,
          if_neg (show ¬ s + MTU + MTU < udp.length by omega),
          Nat.mod_eq_of_lt (show s + MTU < 65536 by omega)]

theorem fragmentRest_length_iff (MTU src dst pid : Nat) (udp : List Nat)
    (hM : 0 < MTU) :
    ∀ r s o i, r = udp.length - (s + MTU) → 1 ≤ r →
      (i + 1 < (fragmentRest MTU src dst pid udp s o r).length ↔
        s + (i + 2) * MTU < udp.length) := by
  intro r
  induction r using Nat.strong_induction_on with
  | _ r ih =>
    intro s o i hr h1
    have hs : s + MTU < udp.length := by omega
    rw [fragmentRest]
    by_cases hc : MTU < r ∧ 0 < MTU
    · simp only [dif_pos hc, List.length_cons]
      match i with
      | 0 =>
        have hne := fragmentRest_ne_nil MTU src dst pid udp (s + MTU)
          ((o + MTU) % 65536) (r - MTU)
        have hpos : 0 < (fragmentRest MTU src dst pid udp (s + MTU)
            ((o + MTU) % 65536) (r - MTU)).length := List.length_pos.mpr hne
        have h2 : s + 2 * MTU = s + MTU + MTU := by ring
        constructor
        · intro _; omega
        · intro _; omega
      | i + 1 =>
        have hiff := ih (r - MTU) (by omega) (s + MTU) ((o + MTU) % 65536) i
          (by omega) (by omega)
        have h2 : s + MTU + (i + 2) * MTU = s + (i + 1 + 2) * MTU := by ring
        rw [h2] at hiff
        constructor
        · intro h
          exact hiff.mp (by omega)
        · intro h
          have := hiff.mpr h
          omega
    · simp only [dif_neg hc, List.length_singleton]
      have hrM : r ≤ MTU := by omega
      constructor
      · omega
      · intro h
        exfalso
        have h2 : 2 * MTU ≤ (i + 2) * MTU := Nat.mul_le_mul_right MTU (by omega)
        omega

theorem fragmentRest_join (MTU src dst pid : Nat) (udp : List Nat) :
    ∀ r s o, r = udp.length - (s + MTU) → 1 ≤ r →
      ((fragmentRest MTU src dst pid udp s o r).map Ipv4Packet.payload).flatten =
        udp.drop (s + MTU) := by
  intro r
  induction r using Nat.strong_induction_on with
  | _ r ih =>
    intro s o hr h1
    have hs : s + MTU < udp.length := by omega
    rw [fragmentRest]
    by_cases hc : MTU < r ∧ 0 < MTU
    · simp only [dif_pos hc, List.map_cons, List.flatten_cons]
      rw [ih (r - MTU) (by omega) (s + MTU) ((o + MTU) % 65536) (by omega) (by omega)]
      have h2 : udp.drop (s + MTU + MTU) = (udp.drop (s + MTU)).drop MTU := by
        rw [List.drop_drop]
      show ((udp.drop (s + MTU)).take MTU) ++ udp.drop (s + MTU + MTU) = udp.drop (s + MTU)
      rw [h2, List.take_append_drop]
    · simp only [dif_neg hc, List.map_cons, List.map_nil, List.flatten_cons,
        List.flatten_nil, List.append_nil]
      rfl

theorem fragment_getElem (c : Consts) (udp : List Nat) (src dst pid fresh : Nat)
    (hM : 0 < c.MTU_UDP) (hN : c.MTU_UDP < udp.length) (hlen : udp.length ≤ 65535) :
    ∀ i, i < (fragment_large_udp_packet c udp src dst pid fresh).length →
      (fragment_large_udp_packet c udp src dst pid fresh)[i]? =
        some (fragAt c.MTU_UDP src dst (if pid = 0 then fresh else pid) udp
          (i * c.MTU_UDP)) := by
  intro i hi
  rw [fragment_large_udp_packet] at hi ⊢
  rw [if_neg (by omega)] at hi ⊢
  match i with
  | 0 =>
    simp only [List.getElem?_cons_zero, fragAt, Nat.zero_mul,
      if_pos (show 0 + c.MTU_UDP < udp.length by omega), List.drop_zero, Nat.zero_mod]
  | i + 1 =>
    simp only [List.getElem?_cons_succ]
    simp only [List.length_cons] at hi
    rw [fragmentRest_getElem c.MTU_UDP src dst _ udp hlen hM
      (udp.length - c.MTU_UDP) 0 i (by omega) (by omega) (by omega)]
    congr 2
    ring

theorem fragment_length_iff (c : Consts) (udp : List Nat) (src dst pid fresh : Nat)
    (hM : 0 < c.MTU_UDP) (hN : c.MTU_UDP < udp.length) :
    ∀ i, i + 1 < (fragment_large_udp_packet c udp src dst pid fresh).length ↔
      (i + 1) * c.MTU_UDP < udp.length := by
  intro i
  rw [fragment_large_udp_packet, if_neg (by omega)]
  match i with
  | 0 =>
    simp only [List.length_cons]
    have hne := fragmentRest_ne_nil c.MTU_UDP src dst
      (if pid = 0 then fresh else pid) udp 0 0 (udp.length - c.MTU_UDP)
    have hpos := List.length_pos.mpr hne
    constructor
    · intro _; omega
    · intro _; omega
  | i + 1 =>
    simp only [List.length_cons]
    have hiff := fragmentRest_length_iff c.MTU_UDP src dst
      (if pid = 0 then fresh else pid) udp hM (udp.length - c.MTU_UDP) 0 0 i
      (by omega) (by omega)
    rw [Nat.zero_add] at hiff
    constructor
    · intro h; exact hiff.mp (by omega)
    · intro h; have := hiff.mpr h; omega

theorem fragment_length_ge_two (c : Consts) (udp : List Nat)
    (src dst pid fresh : Nat) (hN : c.MTU_UDP ≤ udp.length) :
    2 ≤ (fragment_large_udp_packet c udp src dst pid fresh).length := by
  rw [fragment_large_udp_packet, if_neg (by omega)]
  simp only [List.length_cons]
  have hne := fragmentRest_ne_nil c.MTU_UDP src dst
    (if pid = 0 then fresh else pid) udp 0 0 (udp.length - c.MTU_UDP)
  have hpos := List.length_pos.mpr hne
  omega

theorem fragment_join (c : Consts) (udp : List Nat) (src dst pid fresh : Nat)
    (hN : c.MTU_UDP < udp.length) :
    ((fragment_large_udp_packet c udp src dst pid fresh).map
      Ipv4Packet.payload).flatten = udp := by
  rw [fragment_large_udp_packet, if_neg (by omega)]
  simp only [List.map_cons, List.flatten_cons]
  rw [fragmentRest_join c.MTU_UDP src dst _ udp (udp.length - c.MTU_UDP) 0 0
    (by omega) (by omega)]
  rw [Nat.zero_add]
  show udp.take c.MTU_UDP ++ udp.drop c.MTU_UDP = udp
  exact List.take_append_drop _ _

theorem frag_field_roundtrip (t : Nat) (h8 : 8 ∣ t) (hlt : t < 65536) :
    t % 65536 / 8 % 8192 * 8 = t := by
  rw [Nat.mod_eq_of_lt hlt]
  have h1 : t / 8 < 8192 := by omega
  rw [Nat.mod_eq_of_lt h1, Nat.div_mul_cancel h8]

/-- **C1.** For every UDP packet of length `N > MTU_UDP` handed to
`fragment_large_udp_packet`, the returned IPv4 packets satisfy: the
concatenation of their payloads is the input UDP packet byte-for-byte;
every fragment but the last carries exactly `MTU_UDP` payload bytes and has
MF=1; the last has MF=0 and carries at most `MTU_UDP` bytes; the fragment
byte offsets are `i * MTU_UDP` — contiguous, monotonically increasing
multiples of 8 starting at 0; and all fragments carry one identification
value. -/
theorem fragmenter_correct (c : Consts) (udp : List Nat) (src dst pid fresh : Nat)
    (h8 : 8 ∣ c.MTU_UDP) (hM : 0 < c.MTU_UDP)
    (hN : c.MTU_UDP < udp.length) (hlen : udp.length ≤ 65535) :
    ((fragment_large_udp_packet c udp src dst pid fresh).map
        Ipv4Packet.payload).flatten = udp
    ∧ (∀ i p, (fragment_large_udp_packet c udp src dst pid fresh)[i]? = some p →
        (i + 1 < (fragment_large_udp_packet c udp src dst pid fresh).length →
          p.payload.length = c.MTU_UDP ∧ p.more_frags = true)
        ∧ (i + 1 = (fragment_large_udp_packet c udp src dst pid fresh).length →
          p.more_frags = false ∧ p.payload.length ≤ c.MTU_UDP)
        ∧ p.frag_offset = i * c.MTU_UDP
        ∧ 8 ∣ p.frag_offset
        ∧ p.ident = (if pid = 0 then fresh else pid) % 65536) := by
  refine ⟨fragment_join c udp src dst pid fresh hN, ?_⟩
  intro i p hp
  have hi : i < (fragment_large_udp_packet c udp src dst pid fresh).length := by
    by_contra hcon
    rw [List.getElem?_eq_none (by omega)] at hp
    exact Option.noConfusion hp
  have hkey := fragment_getElem c udp src dst pid fresh hM hN hlen i hi
  rw [hp] at hkey
  have hpe : p = fragAt c.MTU_UDP src dst (if pid = 0 then fresh else pid) udp
      (i * c.MTU_UDP) := Option.some.inj hkey
  subst hpe
  have hoff : i * c.MTU_UDP < udp.length := by
    match i with
    | 0 => simpa using Nat.lt_of_lt_of_le (Nat.zero_lt_of_lt hN) (le_refl _)
    | j + 1 =>
      have := (fragment_length_iff c udp src dst pid fresh hM hN j).mp (by omega)
      exact this
  refine ⟨?_, ?_, ?_, ?_, ?_⟩
  · intro hmid
    have hlt : (i + 1) * c.MTU_UDP < udp.length :=
      (fragment_length_iff c udp src dst pid fresh hM hN i).mp hmid
    have hcond : i * c.MTU_UDP + c.MTU_UDP < udp.length := by
      have : (i + 1) * c.MTU_UDP = i * c.MTU_UDP + c.MTU_UDP := by ring
      omega
    rw [fragAt, if_pos hcond]
    constructor
    · show ((udp.drop (i * c.MTU_UDP)).take c.MTU_UDP).length = c.MTU_UDP
      rw [List.length_take, List.length_drop]
      omega
    · rfl
  · intro hlast
    have hcond : ¬ i * c.MTU_UDP + c.MTU_UDP < udp.length := by
      intro hcon
      have : (i + 1) * c.MTU_UDP < udp.length := by
        have : (i + 1) * c.MTU_UDP = i * c.MTU_UDP + c.MTU_UDP := by ring
        omega
      have := (fragment_length_iff c udp src dst pid fresh hM hN i).mpr this
      omega
    rw [fragAt, if_neg hcond]
    constructor
    · rfl
    · show (udp.drop (i * c.MTU_UDP)).length ≤ c.MTU_UDP
      rw [List.length_drop]
      omega
  · rw [fragAt]
    have h8t : 8 ∣ i * c.MTU_UDP := Dvd.dvd.mul_left h8 i
    have hlt : i * c.MTU_UDP < 65536 := by omega
    split <;>
      simp only [Ipv4Packet.frag_offset, Ipv4Packet.set_dont_frag,
        Ipv4Packet.set_more_frags, Ipv4Packet.set_frag_offset,
        Ipv4Packet.set_ident, Ipv4Repr.emit] <;>
      exact frag_field_roundtrip _ h8t hlt
  · rw [fragAt]
    have h8t : 8 ∣ i * c.MTU_UDP := Dvd.dvd.mul_left h8 i
    have hlt : i * c.MTU_UDP < 65536 := by omega
    split <;>
      simp only [Ipv4Packet.frag_offset, Ipv4Packet.set_dont_frag,
        Ipv4Packet.set_more_frags, Ipv4Packet.set_frag_offset,
        Ipv4Packet.set_ident, Ipv4Repr.emit] <;>
      rw [frag_field_roundtrip _ h8t hlt] <;> exact h8t
  · rw [fragAt]
    split <;> rfl

/-- Witness for `fragmenter_correct`: a 20-byte UDP packet fragmented with
`MTU_UDP = 8`. -/
theorem fragmenter_correct_witness :
    (8 ∣ cEx.MTU_UDP ∧ 0 < cEx.MTU_UDP ∧ cEx.MTU_UDP < udpEx.length ∧
      udpEx.length ≤ 65535)
    ∧ (((fragment_large_udp_packet cEx udpEx 1 2 7 99).map
          Ipv4Packet.payload).flatten = udpEx
      ∧ (∀ i p, (fragment_large_udp_packet cEx udpEx 1 2 7 99)[i]? = some p →
          (i + 1 < (fragment_large_udp_packet cEx udpEx 1 2 7 99).length →
            p.payload.length = cEx.MTU_UDP ∧ p.more_frags = true)
          ∧ (i + 1 = (fragment_large_udp_packet cEx udpEx 1 2 7 99).length →
            p.more_frags = false ∧ p.payload.length ≤ cEx.MTU_UDP)
          ∧ p.frag_offset = i * cEx.MTU_UDP
          ∧ 8 ∣ p.frag_offset
          ∧ p.ident = (if (7 : Nat) = 0 then 99 else 7) % 65536)) :=
  ⟨⟨by decide, by decide, by decide, by decide⟩,
    fragmenter_correct cEx udpEx 1 2 7 99 (by decide) (by decide) (by decide)
      (by decide)⟩

/-- **C3 (counterexample).** The claim says every input of length
`≤ MTU_UDP` yields exactly one packet; but at length exactly `MTU_UDP`
(8 = `cEx.MTU_UDP` here) the fragmenter takes the fragmenting branch
(its test is `remaining_len < end_len`, strict) and emits two packets. -/
theorem fragmenter_at_mtu_two_packets :
    (List.range 8).length ≤ cEx.MTU_UDP ∧
      (fragment_large_udp_packet cEx (List.range 8) 1 2 7 99).length = 2 := by
  constructor
  · decide
  · simp [fragment_large_udp_packet, cEx, fragmentRest_last]

/-- **C3 (amended).** For every input UDP packet whose length is **strictly
less than** `MTU_UDP`, the fragmenter emits exactly one unfragmented IPv4
packet with MF=0, fragment offset 0, DF=0, and identification equal to the
input id (as a 16-bit value), even when that id is 0. -/
theorem fragmenter_small_single (c : Consts) (udp : List Nat)
    (src dst pid fresh : Nat) (hN : udp.length < c.MTU_UDP) :
    fragment_large_udp_packet c udp src dst pid fresh =
      [{ ident := pid % 65536, frag_field := 0, more_frags := false,
         dont_frag := false, hop_limit := 64, protocol := protoUdp,
         src_addr := src, dst_addr := dst, payload := udp }] := by
  rw [fragment_large_udp_packet, if_pos hN]
  rfl

/-- Witness for `fragmenter_small_single`: a 5-byte packet with input id 0
stays one packet with ident 0. -/
theorem fragmenter_small_single_witness :
    ((List.range 5).length < cEx.MTU_UDP)
    ∧ fragment_large_udp_packet cEx (List.range 5) 1 2 0 99 =
      [{ ident := 0 % 65536, frag_field := 0, more_frags := false,
         dont_frag := false, hop_limit := 64, protocol := protoUdp,
         src_addr := 1, dst_addr := 2, payload := List.range 5 }] :=
  ⟨by decide, fragmenter_small_single cEx (List.range 5) 1 2 0 99 (by decide)⟩

/-- **C4.** When the reassembler processes a fragment with MF=0, the total
length it records for the entry — `frag_offset() + total_len()` of that
fragment — equals the fragment's byte offset plus its payload length plus
its IP header length; and whenever a datagram is returned, it is the
reassembly buffer with the IPv4 total-length field rewritten to the
assembled length and the header checksum recomputed, copied out at the
assembled length, and the entry has been reset. -/
theorem reassembler_completion (c : Consts) (p : List Nat) (ts : Nat)
    (fs : FragmentSet) (hv : ipv4Valid p = true) :
    (ipv4MoreFrags p = false →
      fragmentTotalLen p =
        ipv4FragOffset p + (ipv4Payload p).length + ipv4HeaderLen p)
    ∧ (∀ out fs', process_ipv4_fragment c p ts fs = (.ok (some out), fs') →
        ∃ (i : Nat) (fs₁ : FragmentSet) (e₃ : FragmentedPacket) (front : Nat),
          FragmentSet.get_packet fs (ipv4Ident p) (ipv4SrcAddr p) (ipv4DstAddr p)
            ts c.STALE_THRESHOLD = some (i, fs₁)
          ∧ e₃.check_contig_range = true
          ∧ e₃.front = some front
          ∧ out = (fillIpv4Checksum (setTotalLenBytes e₃.buffer (front % 65536))).take front
          ∧ fs' = fs₁.set i ({ e₃ with
              buffer := fillIpv4Checksum (setTotalLenBytes e₃.buffer (front % 65536)) }).reset
          ∧ (fs'.getD i default).is_empty = true) := by
  simp only [ipv4Valid, decide_eq_true_eq] at hv
  constructor
  · intro _
    rw [fragmentTotalLen]
    have hp : (ipv4Payload p).length = ipv4TotalLen p - ipv4HeaderLen p := by
      rw [ipv4Payload, List.length_take, List.length_drop]
      omega
    omega
  · intro out fs' h
    simp only [process_ipv4_fragment] at h
    split at h
    · exact absurd h (by simp)
    · rename_i i fs₁ hgp
      split at h
      · exact absurd h (by simp)
      · rename_i e₃ hadd
        split at h
        · split at h
          · exact absurd h (by simp)
          · rename_i front hfront
            split at h
            · rename_i hval
              rw [Prod.mk.injEq] at h
              obtain ⟨h1, h2⟩ := h
              rw [Except.ok.injEq, Option.some.injEq] at h1
              refine ⟨i, fs₁, e₃, front, hgp, by assumption, hfront, h1.symm, h2.symm, ?_⟩
              subst h2
              rcases Nat.lt_or_ge i fs₁.length with hlt | hge
              · rw [List.getD_eq_getElem?_getD, List.getElem?_set_self
                  (by simpa using hlt)]
                rfl
              · rw [List.getD_eq_getElem?_getD, List.getElem?_eq_none
                  (by simpa using hge)]
                rfl
            · exact absurd h (by simp)
        · exact absurd h (by simp)

/-- Witness for `reassembler_completion`: the single complete fragment
`pEx` processed in a one-slot table. -/
theorem reassembler_completion_witness :
    (ipv4Valid pEx = true)
    ∧ ((ipv4MoreFrags pEx = false →
        fragmentTotalLen pEx =
          ipv4FragOffset pEx + (ipv4Payload pEx).length + ipv4HeaderLen pEx)
      ∧ (∀ out fs', process_ipv4_fragment cEx pEx 3 [emptyEntry 64] =
            (.ok (some out), fs') →
          ∃ (i : Nat) (fs₁ : FragmentSet) (e₃ : FragmentedPacket) (front : Nat),
            FragmentSet.get_packet [emptyEntry 64] (ipv4Ident pEx)
              (ipv4SrcAddr pEx) (ipv4DstAddr pEx) 3 cEx.STALE_THRESHOLD =
                some (i, fs₁)
            ∧ e₃.check_contig_range = true
            ∧ e₃.front = some front
            ∧ out = (fillIpv4Checksum (setTotalLenBytes e₃.buffer
                (front % 65536))).take front
            ∧ fs' = fs₁.set i ({ e₃ with
                buffer := fillIpv4Checksum (setTotalLenBytes e₃.buffer
                  (front % 65536)) }).reset
            ∧ (fs'.getD i default).is_empty = true)) :=
  ⟨by decide, reassembler_completion cEx pEx 3 [emptyEntry 64] (by decide)⟩

theorem byteAt_set_ne (b : List Nat) (i j : Nat) {v : Nat} (h : i ≠ j) :
    byteAt (b.set i v) j = byteAt b j := by
  simp [byteAt, List.getD_eq_getElem?_getD, List.getElem?_set_ne h]

theorem byteAt_append_left (xs ys : List Nat) (i : Nat) (h : i < xs.length) :
    byteAt (xs ++ ys) i = byteAt xs i := by
  simp [byteAt, List.getD_eq_getElem?_getD, List.getElem?_append_left h]

theorem two_bytes_roundtrip (t : Nat) (h : t < 65536) :
    t / 256 % 256 * 256 + t % 256 = t := by omega

theorem udpValid_emit (sp dp src dst : Nat) (payload : List Nat)
    (h : payload.length + 8 ≤ 65535) :
    udpValid (udpEmit sp dp payload src dst) = true := by
  rw [udpEmit]
  set base := [sp / 256 % 256, sp % 256, dp / 256 % 256, dp % 256,
    (8 + payload.length) / 256 % 256, (8 + payload.length) % 256, 0, 0] ++ payload
    with hbase
  have hblen : base.length = 8 + payload.length := by
    rw [hbase, List.length_append]
    rfl
  have hlen4 : byteAt base 4 = (8 + payload.length) / 256 % 256 := by
    rw [hbase, byteAt_append_left _ _ 4 (by simp)]
    rfl
  have hlen5 : byteAt base 5 = (8 + payload.length) % 256 := by
    rw [hbase, byteAt_append_left _ _ 5 (by simp)]
    rfl
  simp only [udpValid, udpLen, decide_eq_true_eq]
  rw [byteAt_set_ne _ 7 4 (by omega), byteAt_set_ne _ 6 4 (by omega),
    byteAt_set_ne _ 7 5 (by omega), byteAt_set_ne _ 6 5 (by omega),
    hlen4, hlen5, List.length_set, List.length_set, hblen,
    two_bytes_roundtrip _ (by omega)]
  omega

/-- **C5.** For every UDP packet that reaches the policy callout, the
result is accepted iff the returned `payload_len` is strictly positive and
at most `MAX_UDP_PACKET_SIZE`; on acceptance the result is a UDP packet
rebuilt from the first `payload_len` bytes of the (possibly rewritten)
buffer with the checksum recomputed over the IPv4 pseudo-header; in every
other case the packet is dropped with the `Dropped` error. -/
theorem policy_gate (c : Consts) (srcA dstA : Nat) (ip_payload : List Nat)
    (fw : FirewallFn) (ret : Int) (written : List Nat)
    (hvalid : udpValid ip_payload = true)
    (hck : udpChecksumOk srcA dstA ip_payload = true)
    (hfw : fw srcA (udpSrcPort ip_payload) dstA (udpDstPort ip_payload)
        (calloutBufferLen ip_payload) (udpPayload ip_payload)
        c.MAX_UDP_PAYLOAD_SIZE = (ret, written))
    (hmax : c.MAX_UDP_PACKET_SIZE + 8 ≤ 65535) :
    (0 < ret ∧ ret.toNat ≤ c.MAX_UDP_PACKET_SIZE →
      process_udp c srcA dstA ip_payload fw =
        .ok (udpEmit (udpSrcPort ip_payload) (udpDstPort ip_payload)
          (written.take ret.toNat) srcA dstA))
    ∧ (¬ (0 < ret ∧ ret.toNat ≤ c.MAX_UDP_PACKET_SIZE) →
      process_udp c srcA dstA ip_payload fw = .error .Dropped)
    ∧ (∀ outp, process_udp c srcA dstA ip_payload fw = .ok outp →
        0 < ret ∧ ret.toNat ≤ c.MAX_UDP_PACKET_SIZE) := by
  have hacc : 0 < ret ∧ ret.toNat ≤ c.MAX_UDP_PACKET_SIZE →
      process_udp c srcA dstA ip_payload fw =
        .ok (udpEmit (udpSrcPort ip_payload) (udpDstPort ip_payload)
          (written.take ret.toNat) srcA dstA) := by
    intro hok
    have hval := udpValid_emit (udpSrcPort ip_payload) (udpDstPort ip_payload)
      srcA dstA (written.take ret.toNat)
      (by
        have := List.length_take_le ret.toNat written
        omega)
    simp only [process_udp, hvalid, hck, hfw, if_true, if_pos hok, hval]
  have hrej : ¬ (0 < ret ∧ ret.toNat ≤ c.MAX_UDP_PACKET_SIZE) →
      process_udp c srcA dstA ip_payload fw = .error .Dropped := by
    intro hno
    simp only [process_udp, hvalid, hck, hfw, if_true, if_neg hno]
  refine ⟨hacc, hrej, ?_⟩
  intro outp hout
  by_cases hc : 0 < ret ∧ ret.toNat ≤ c.MAX_UDP_PACKET_SIZE
  · exact hc
  · rw [hrej hc] at hout
    exact Except.noConfusion hout

/-- Witness for `policy_gate`: the concrete packet `uEx` with a policy
function that accepts 4 bytes unchanged. -/
theorem policy_gate_witness :
    (udpValid uEx = true
      ∧ udpChecksumOk 1 2 uEx = true
      ∧ (fun _ _ _ _ _ (buf : List Nat) _ => ((4 : Int), buf)) 1
          (udpSrcPort uEx) 2 (udpDstPort uEx) (calloutBufferLen uEx)
          (udpPayload uEx) cEx.MAX_UDP_PAYLOAD_SIZE = ((4 : Int), [1, 2, 3, 4])
      ∧ cEx.MAX_UDP_PACKET_SIZE + 8 ≤ 65535)
    ∧ (((0 : Int) < 4 ∧ (4 : Int).toNat ≤ cEx.MAX_UDP_PACKET_SIZE →
        process_udp cEx 1 2 uEx (fun _ _ _ _ _ buf _ => ((4 : Int), buf)) =
          .ok (udpEmit (udpSrcPort uEx) (udpDstPort uEx)
            ([1, 2, 3, 4].take (4 : Int).toNat) 1 2))
      ∧ (¬ ((0 : Int) < 4 ∧ (4 : Int).toNat ≤ cEx.MAX_UDP_PACKET_SIZE) →
        process_udp cEx 1 2 uEx (fun _ _ _ _ _ buf _ => ((4 : Int), buf)) =
          .error .Dropped)
      ∧ (∀ outp, process_udp cEx 1 2 uEx
            (fun _ _ _ _ _ buf _ => ((4 : Int), buf)) = .ok outp →
          (0 : Int) < 4 ∧ (4 : Int).toNat ≤ cEx.MAX_UDP_PACKET_SIZE)) :=
  ⟨⟨by decide, by decide, by decide, by decide⟩,
    policy_gate cEx 1 2 uEx (fun _ _ _ _ _ buf _ => ((4 : Int), buf)) 4
      [1, 2, 3, 4] (by decide) (by decide) (by decide) (by decide)⟩

/-- **C6 (exhibit).** The byte vector handed to the policy callout has
initialized length equal to the input payload's length — 4 for `uEx` —
strictly below `MAX_UDP_PAYLOAD_SIZE` (100 here): the source only reserves
the capacity (`Vec::with_capacity`), it does not grow the initialized
length, so reading back a larger reported length is reading uninitialized
memory. -/
theorem callout_buffer_underinitialized :
    calloutBufferLen uEx = 4 ∧ 4 < cEx.MAX_UDP_PAYLOAD_SIZE := by decide

theorem enqueueLoop_le (maxq : Nat) (ps : List (List Nat)) :
    ∀ buffer, buffer.length ≤ maxq → (enqueueLoop maxq ps buffer).length ≤ maxq := by
  induction ps with
  | nil => intro buffer h; exact h
  | cons p ps ih =>
    intro buffer h
    rw [enqueueLoop]
    split
    · refine ih _ ?_
      rw [List.length_append]
      simpa using by omega
    · exact h

theorem enqueueLoop_full (maxq : Nat) (ps buffer : List (List Nat))
    (h : maxq ≤ buffer.length) : enqueueLoop maxq ps buffer = buffer := by
  cases ps with
  | nil => rfl
  | cons p ps => rw [enqueueLoop, if_neg (by omega)]

/-- **C7.** Starting from a queue within its bound, `process_ethernet`
never grows the queue past `MAX_ENQUEUED_PACKETS`; at capacity the queue is
left untouched (tail-drop), and a full-queue ARP pass-through still returns
OK. -/
theorem queue_bounded (c : Consts) (frame : List Nat)
    (packet_buffer : List (List Nat)) (fragments : FragmentSet)
    (fw : FirewallFn) (check_mac : Bool) (local_mac : List Nat) (ts fresh : Nat)
    (h : packet_buffer.length ≤ c.MAX_ENQUEUED_PACKETS) :
    (process_ethernet c frame packet_buffer fragments fw check_mac local_mac
        ts fresh).2.1.length ≤ c.MAX_ENQUEUED_PACKETS
    ∧ (packet_buffer.length = c.MAX_ENQUEUED_PACKETS →
        (process_ethernet c frame packet_buffer fragments fw check_mac
          local_mac ts fresh).2.1 = packet_buffer)
    ∧ (ethValid frame = true → ethertype frame = 0x0806 →
        ¬ (check_mac = true ∧ ¬ (isBroadcastMac (ethDst frame) = true) ∧
          ¬ (isMulticastMac (ethDst frame) = true) ∧ ethDst frame ≠ local_mac) →
        (process_ethernet c frame packet_buffer fragments fw check_mac
          local_mac ts fresh).1 = .ok ()) := by
  refine ⟨?_, ?_, ?_⟩
  · rw [process_ethernet]
    split
    · exact h
    split
    · exact h
    split
    · split
      · exact enqueueLoop_le _ _ _ h
      · exact h
    split
    · exact h
    split
    · split
      · rw [List.length_append]
        simpa using by omega
      · exact h
    · exact h
  · intro hfull
    rw [process_ethernet]
    split
    · rfl
    split
    · rfl
    split
    · split
      · exact enqueueLoop_full _ _ _ (by omega)
      · rfl
    split
    · rfl
    split
    · rw [if_neg (by omega)]
    · rfl
  · intro hv harp hfil
    rw [process_ethernet, if_neg (by simp [hv]), if_neg hfil,
      if_neg (by omega), if_neg (by omega), if_pos harp]

/-- Witness for `queue_bounded`: an ARP frame into a one-element queue with
capacity 10. -/
theorem queue_bounded_witness :
    ([[5]] : List (List Nat)).length ≤ cEx.MAX_ENQUEUED_PACKETS
    ∧ ((process_ethernet cEx [255, 255, 255, 255, 255, 255, 1, 1, 1, 1, 1, 1, 8, 6]
          [[5]] [] fwEx false [4, 4, 4, 4, 4, 4] 0 0).2.1.length ≤
        cEx.MAX_ENQUEUED_PACKETS
      ∧ (([[5]] : List (List Nat)).length = cEx.MAX_ENQUEUED_PACKETS →
          (process_ethernet cEx [255, 255, 255, 255, 255, 255, 1, 1, 1, 1, 1, 1, 8, 6]
            [[5]] [] fwEx false [4, 4, 4, 4, 4, 4] 0 0).2.1 = [[5]])
      ∧ (ethValid [255, 255, 255, 255, 255, 255, 1, 1, 1, 1, 1, 1, 8, 6] = true →
          ethertype [255, 255, 255, 255, 255, 255, 1, 1, 1, 1, 1, 1, 8, 6] = 0x0806 →
          ¬ ((false : Bool) = true ∧
            ¬ (isBroadcastMac (ethDst [255, 255, 255, 255, 255, 255, 1, 1, 1, 1, 1, 1, 8, 6]) = true) ∧
            ¬ (isMulticastMac (ethDst [255, 255, 255, 255, 255, 255, 1, 1, 1, 1, 1, 1, 8, 6]) = true) ∧
            ethDst [255, 255, 255, 255, 255, 255, 1, 1, 1, 1, 1, 1, 8, 6] ≠ [4, 4, 4, 4, 4, 4]) →
          (process_ethernet cEx [255, 255, 255, 255, 255, 255, 1, 1, 1, 1, 1, 1, 8, 6]
            [[5]] [] fwEx false [4, 4, 4, 4, 4, 4] 0 0).1 = .ok ())) :=
  ⟨by decide,
    queue_bounded cEx [255, 255, 255, 255, 255, 255, 1, 1, 1, 1, 1, 1, 8, 6]
      [[5]] [] fwEx false [4, 4, 4, 4, 4, 4] 0 0 (by decide)⟩

/-- **C8.** On every frame for which `process_ethernet` reports an error,
nothing is enqueued: the outbound queue is returned unchanged.  In
particular, a fragmented-UDP frame whose reassembly is still incomplete
makes `process_ipv4` return the `Fragmented` error with no frames
emitted. -/
theorem error_enqueues_nothing (c : Consts) (frame : List Nat)
    (packet_buffer : List (List Nat)) (fragments : FragmentSet)
    (fw : FirewallFn) (check_mac : Bool) (local_mac : List Nat) (ts fresh : Nat) :
    (∀ e, (process_ethernet c frame packet_buffer fragments fw check_mac
        local_mac ts fresh).1 = .error e →
      (process_ethernet c frame packet_buffer fragments fw check_mac
        local_mac ts fresh).2.1 = packet_buffer)
    ∧ (∀ v fs₂, ethValid frame = true → ipv4Valid (frame.drop 14) = true →
        shave_crc_from_ipv4 (frame.drop 14) = .ok v →
        (ipv4MoreFrags v = true ∨ 0 < ipv4FragOffset v) →
        ipv4Protocol v = protoUdp →
        process_ipv4_fragment c v ts fragments = (.ok none, fs₂) →
        process_ipv4 c frame fragments fw ts fresh = (.error .Fragmented, fs₂)) := by
  constructor
  · intro e
    rw [process_ethernet]
    split
    · intro _
      rfl
    split
    · intro hcon
      exact absurd hcon (by simp)
    split
    · split
      · intro hcon
        exact absurd hcon (by simp)
      · intro _
        rfl
    split
    · intro hcon
      exact absurd hcon (by simp)
    split
    · intro hcon
      exact absurd hcon (by simp)
    · intro hcon
      exact absurd hcon (by simp)
  · intro v fs₂ hv hok hsh hfrag hud hincomplete
    simp only [process_ipv4]
    rw [if_neg (by simp [hv]), if_neg (by simp [hok]), hsh]
    simp only [if_pos (And.intro hfrag hud), hincomplete]

/-- Witness for `error_enqueues_nothing`: a one-byte frame is malformed;
the queue is unchanged. -/
theorem error_enqueues_nothing_witness :
    (process_ethernet cEx [0] [[5]] [] fwEx true [1, 2, 3, 4, 5, 6] 0 0).1 =
      .error .Malformed
    ∧ (process_ethernet cEx [0] [[5]] [] fwEx true [1, 2, 3, 4, 5, 6] 0 0).2.1 =
      [[5]] :=
  ⟨by rfl,
    (error_enqueues_nothing cEx [0] [[5]] [] fwEx true [1, 2, 3, 4, 5, 6] 0 0).1
      .Malformed (by rfl)⟩

/-- **C9.** With the MAC check enabled, a parseable frame whose destination
is unicast and differs from the local MAC is silently dropped (OK result,
queue and fragment table unchanged); a broadcast or multicast destination
is never dropped by this filter — the call behaves exactly as with the
check disabled. -/
theorem mac_filter_correct (c : Consts) (frame : List Nat)
    (packet_buffer : List (List Nat)) (fragments : FragmentSet)
    (fw : FirewallFn) (local_mac : List Nat) (ts fresh : Nat)
    (hok : ethValid frame = true) :
    (isBroadcastMac (ethDst frame) = false →
      isMulticastMac (ethDst frame) = false → ethDst frame ≠ local_mac →
      process_ethernet c frame packet_buffer fragments fw true local_mac
        ts fresh = (.ok (), packet_buffer, fragments))
    ∧ ((isBroadcastMac (ethDst frame) = true ∨
        isMulticastMac (ethDst frame) = true) →
      process_ethernet c frame packet_buffer fragments fw true local_mac
        ts fresh =
      process_ethernet c frame packet_buffer fragments fw false local_mac
        ts fresh) := by
  constructor
  · intro hb hm hne
    rw [process_ethernet, if_neg (by simp [hok]),
      if_pos ⟨rfl, by simp [hb], by simp [hm], hne⟩]
  · intro hbm
    have hcond1 : ¬ ((true : Bool) = true ∧
        ¬ (isBroadcastMac (ethDst frame) = true) ∧
        ¬ (isMulticastMac (ethDst frame) = true) ∧ ethDst frame ≠ local_mac) := by
      rintro ⟨-, hnb, hnm, -⟩
      rcases hbm with hb | hm
      · exact hnb hb
      · exact hnm hm
    have hcond2 : ¬ ((false : Bool) = true ∧
        ¬ (isBroadcastMac (ethDst frame) = true) ∧
        ¬ (isMulticastMac (ethDst frame) = true) ∧ ethDst frame ≠ local_mac) := by
      rintro ⟨hfalse, -⟩
      exact Bool.noConfusion hfalse
    conv_lhs => rw [process_ethernet, if_neg (by simp [hok]), if_neg hcond1]
    conv_rhs => rw [process_ethernet, if_neg (by simp [hok]), if_neg hcond2]

/-- Witness for `mac_filter_correct`: a 14-byte frame with unicast
destination `02:00:...` differing from the local MAC `04:04:...` is
silently dropped. -/
theorem mac_filter_correct_witness :
    (ethValid [2, 0, 0, 0, 0, 0, 1, 1, 1, 1, 1, 1, 8, 0] = true
      ∧ isBroadcastMac (ethDst [2, 0, 0, 0, 0, 0, 1, 1, 1, 1, 1, 1, 8, 0]) = false
      ∧ isMulticastMac (ethDst [2, 0, 0, 0, 0, 0, 1, 1, 1, 1, 1, 1, 8, 0]) = false
      ∧ ethDst [2, 0, 0, 0, 0, 0, 1, 1, 1, 1, 1, 1, 8, 0] ≠ [4, 4, 4, 4, 4, 4])
    ∧ process_ethernet cEx [2, 0, 0, 0, 0, 0, 1, 1, 1, 1, 1, 1, 8, 0] [[5]] []
        fwEx true [4, 4, 4, 4, 4, 4] 0 0 = (.ok (), [[5]], []) :=
  ⟨⟨by decide, by decide, by decide, by decide⟩,
    (mac_filter_correct cEx [2, 0, 0, 0, 0, 0, 1, 1, 1, 1, 1, 1, 8, 0] [[5]] []
      fwEx [4, 4, 4, 4, 4, 4] 0 0 (by decide)).1 (by decide) (by decide)
      (by decide)⟩

theorem process_ipv4_after_preserves (c : Consts)
    (eth_packet eth_payload : List Nat) (fragments : FragmentSet)
    (fw : FirewallFn) (fresh : Nat) :
    (process_ipv4_after c eth_packet eth_payload fragments fw fresh).2 =
      fragments := by
  rw [process_ipv4_after]
  split
  · rfl
  split
  · rfl
  split
  · rfl
  split
  · rfl
  split
  · split
    · rfl
    · rfl
  · rfl

/-- **C10.** A fragmented IPv4 packet (MF=1 or offset > 0) whose protocol
is not UDP bypasses reassembly: the fragment table is unchanged by the
call, and an ICMP or IGMP fragment that reparses cleanly is passed through
as one frame identical to the input. -/
theorem fragmented_non_udp_passthrough (c : Consts) (eth_packet : List Nat)
    (fragments : FragmentSet) (fw : FirewallFn) (ts fresh : Nat) (v : List Nat)
    (hok : ethValid eth_packet = true)
    (hv : ipv4Valid (eth_packet.drop 14) = true)
    (hsh : shave_crc_from_ipv4 (eth_packet.drop 14) = .ok v)
    (hfrag : ipv4MoreFrags v = true ∨ 0 < ipv4FragOffset v)
    (hnud : ipv4Protocol v ≠ protoUdp) :
    (process_ipv4 c eth_packet fragments fw ts fresh).2 = fragments
    ∧ (ipv4Protocol v = protoIcmp ∨ ipv4Protocol v = protoIgmp →
      ipv4Version v = 4 → ipv4ChecksumOk v = true →
      process_ipv4 c eth_packet fragments fw ts fresh =
        (.ok [eth_packet], fragments)) := by
  have hmain : process_ipv4 c eth_packet fragments fw ts fresh =
      process_ipv4_after c eth_packet (eth_packet.drop 14) fragments fw fresh := by
    simp only [process_ipv4]
    rw [if_neg (by simp [hok]), if_neg (by simp [hv]), hsh]
    simp only [if_neg (show ¬ ((ipv4MoreFrags v = true ∨ 0 < ipv4FragOffset v) ∧
      ipv4Protocol v = protoUdp) from by rintro ⟨-, hp⟩; exact hnud hp)]
  constructor
  · rw [hmain]
    exact process_ipv4_after_preserves c eth_packet (eth_packet.drop 14)
      fragments fw fresh
  · intro hicmp hver hck
    rw [hmain, process_ipv4_after, if_neg (by simp [hv]), hsh]
    simp only [if_neg (not_not_intro (And.intro hver hck)), if_pos hicmp]

/-- Witness for `fragmented_non_udp_passthrough`: the fragmented ICMP
frame `frameIcmpFrag` is passed through unchanged with the table
untouched. -/
theorem fragmented_non_udp_passthrough_witness :
    (ethValid frameIcmpFrag = true
      ∧ ipv4Valid (frameIcmpFrag.drop 14) = true
      ∧ shave_crc_from_ipv4 (frameIcmpFrag.drop 14) =
          .ok (frameIcmpFrag.drop 14)
      ∧ (ipv4MoreFrags (frameIcmpFrag.drop 14) = true ∨
          0 < ipv4FragOffset (frameIcmpFrag.drop 14))
      ∧ ipv4Protocol (frameIcmpFrag.drop 14) ≠ protoUdp)
    ∧ process_ipv4 cEx frameIcmpFrag [emptyEntry 64] fwEx 0 0 =
        (.ok [frameIcmpFrag], [emptyEntry 64]) :=
  ⟨⟨by decide, by decide, by rfl, by decide, by decide⟩,
    (fragmented_non_udp_passthrough cEx frameIcmpFrag [emptyEntry 64] fwEx 0 0
      (frameIcmpFrag.drop 14) (by decide) (by decide) (by rfl)
      (by decide) (by decide)).2 (by decide) (by decide) (by decide)⟩

/-! ### Byte-level toolkit for the round-trip proof -/

theorem byteAt_set_self (b : List Nat) (i v : Nat) (h : i < b.length) :
    byteAt (b.set i v) i = v := by
  simp [byteAt, List.getD_eq_getElem?_getD, List.getElem?_set_eq h]

theorem byteAt_take_lt (b : List Nat) (i t : Nat) (h : i < t) :
    byteAt (b.take t) i = byteAt b i := by
  simp [byteAt, List.getD_eq_getElem?_getD, List.getElem?_take_of_lt h]

theorem byteAt_append_right (xs ys : List Nat) (i : Nat) (h : xs.length ≤ i) :
    byteAt (xs ++ ys) i = byteAt ys (i - xs.length) := by
  simp [byteAt, List.getD_eq_getElem?_getD, List.getElem?_append_right h]

theorem byteAt_drop (b : List Nat) (n i : Nat) :
    byteAt (b.drop n) i = byteAt b (n + i) := by
  simp [byteAt, List.getD_eq_getElem?_getD, List.getElem?_drop]

theorem writeAt_length (b : List Nat) (off : Nat) (data : List Nat)
    (h : off + data.length ≤ b.length) :
    (writeAt b off data).length = b.length := by
  rw [writeAt, List.length_append, List.length_append, List.length_take,
    List.length_drop]
  omega

theorem byteAt_writeAt_in (b : List Nat) (off : Nat) (data : List Nat) (i : Nat)
    (h1 : off ≤ i) (h2 : i < off + data.length)
    (hb : off + data.length ≤ b.length) :
    byteAt (writeAt b off data) i = byteAt data (i - off) := by
  have hlen : (b.take off ++ data).length = off + data.length := by
    rw [List.length_append, List.length_take]
    omega
  rw [writeAt]
  rw [byteAt_append_left _ _ i (by omega)]
  rw [byteAt_append_right _ _ i (by rw [List.length_take]; omega)]
  rw [List.length_take]
  congr 1
  omega

theorem byteAt_writeAt_before (b : List Nat) (off : Nat) (data : List Nat)
    (i : Nat) (h1 : i < off) (hb : off + data.length ≤ b.length) :
    byteAt (writeAt b off data) i = byteAt b i := by
  have hlen : (b.take off ++ data).length = off + data.length := by
    rw [List.length_append, List.length_take]
    omega
  rw [writeAt]
  rw [byteAt_append_left _ _ i (by omega)]
  rw [byteAt_append_left _ _ i (by rw [List.length_take]; omega)]
  exact byteAt_take_lt b i off h1

theorem byteAt_writeAt_after (b : List Nat) (off : Nat) (data : List Nat)
    (i : Nat) (h1 : off + data.length ≤ i)
    (hb : off + data.length ≤ b.length) :
    byteAt (writeAt b off data) i = byteAt b i := by
  have hlen : (b.take off ++ data).length = off + data.length := by
    rw [List.length_append, List.length_take]
    omega
  rw [writeAt]
  rw [byteAt_append_right _ _ i (by omega)]
  rw [hlen, byteAt_drop]
  congr 1
  omega

theorem rawHeader_length (p : Ipv4Packet) : p.rawHeader.length = 20 := rfl

theorem ckHeader_length (p : Ipv4Packet) : p.ckHeader.length = 20 := by
  rw [Ipv4Packet.ckHeader, List.length_set, List.length_set, rawHeader_length]

theorem toBytes_eq (p : Ipv4Packet) : p.toBytes = p.ckHeader ++ p.payload := by
  simp only [Ipv4Packet.toBytes, fillIpv4Checksum]
  have h0 : ipv4HeaderLen (p.rawHeader ++ p.payload) = 20 := by
    rw [ipv4HeaderLen, byteAt_append_left _ _ 0 (by rw [rawHeader_length]; omega)]
    simp [byteAt, Ipv4Packet.rawHeader]
  have htake : (p.rawHeader ++ p.payload).take 20 = p.rawHeader := by
    have h20 : (20 : Nat) = p.rawHeader.length := (rawHeader_length p).symm
    rw [h20, List.take_left]
  have hinner : (((p.rawHeader ++ p.payload).set 10 0).set 11 0) =
      p.rawHeader ++ p.payload := by
    rw [List.set_append_left 10 0 (by rw [rawHeader_length]; omega),
      List.set_append_left 11 0 (by rw [List.length_set, rawHeader_length]; omega)]
    have hz : (p.rawHeader.set 10 0).set 11 0 = p.rawHeader := rfl
    rw [hz]
  have hck : checksum16 ((((p.rawHeader ++ p.payload).set 10 0).set 11 0).take
      (ipv4HeaderLen (p.rawHeader ++ p.payload))) = checksum16 p.rawHeader := by
    rw [hinner, h0, htake]
  rw [hck]
  rw [List.set_append_left 10 _ (by rw [rawHeader_length]; omega),
    List.set_append_left 11 _ (by rw [List.length_set, rawHeader_length]; omega)]
  rfl

theorem byteAt_ckHeader_ne (p : Ipv4Packet) (i : Nat) (h1 : i ≠ 10)
    (h2 : i ≠ 11) : byteAt p.ckHeader i = byteAt p.rawHeader i := by
  rw [Ipv4Packet.ckHeader, byteAt_set_ne _ 11 i (Ne.symm h2),
    byteAt_set_ne _ 10 i (Ne.symm h1)]

theorem byteAt_toBytes_head (p : Ipv4Packet) (i : Nat) (h : i < 20)
    (h1 : i ≠ 10) (h2 : i ≠ 11) :
    byteAt p.toBytes i = byteAt p.rawHeader i := by
  rw [toBytes_eq, byteAt_append_left _ _ i (by rw [ckHeader_length]; omega),
    byteAt_ckHeader_ne p i h1 h2]

theorem toBytes_length (p : Ipv4Packet) :
    p.toBytes.length = 20 + p.payload.length := by
  rw [toBytes_eq, List.length_append, ckHeader_length]

theorem ipv4HeaderLen_toBytes (p : Ipv4Packet) :
    ipv4HeaderLen p.toBytes = 20 := by
  rw [ipv4HeaderLen, byteAt_toBytes_head p 0 (by omega) (by omega) (by omega)]
  simp [byteAt, Ipv4Packet.rawHeader]

theorem ipv4Version_toBytes (p : Ipv4Packet) : ipv4Version p.toBytes = 4 := by
  rw [ipv4Version, byteAt_toBytes_head p 0 (by omega) (by omega) (by omega)]
  simp [byteAt, Ipv4Packet.rawHeader]

theorem ipv4TotalLen_toBytes (p : Ipv4Packet)
    (h : 20 + p.payload.length < 65536) :
    ipv4TotalLen p.toBytes = 20 + p.payload.length := by
  rw [ipv4TotalLen, byteAt_toBytes_head p 2 (by omega) (by omega) (by omega),
    byteAt_toBytes_head p 3 (by omega) (by omega) (by omega)]
  have h2 : byteAt p.rawHeader 2 = p.total_len / 256 % 256 := by
    simp [byteAt, Ipv4Packet.rawHeader]
  have h3 : byteAt p.rawHeader 3 = p.total_len % 256 := by
    simp [byteAt, Ipv4Packet.rawHeader]
  have ht : p.total_len = 20 + p.payload.length := rfl
  rw [h2, h3, ht, two_bytes_roundtrip _ (by omega)]

theorem ipv4Ident_toBytes (p : Ipv4Packet) (h : p.ident < 65536) :
    ipv4Ident p.toBytes = p.ident := by
  rw [ipv4Ident, byteAt_toBytes_head p 4 (by omega) (by omega) (by omega),
    byteAt_toBytes_head p 5 (by omega) (by omega) (by omega)]
  have h4 : byteAt p.rawHeader 4 = p.ident / 256 % 256 := by
    simp [byteAt, Ipv4Packet.rawHeader]
  have h5 : byteAt p.rawHeader 5 = p.ident % 256 := by
    simp [byteAt, Ipv4Packet.rawHeader]
  rw [h4, h5, two_bytes_roundtrip _ h]

theorem byteAt_rawHeader_6 (p : Ipv4Packet) :
    byteAt p.rawHeader 6 = (if p.dont_frag then 64 else 0) +
      (if p.more_frags then 32 else 0) + p.frag_field / 256 := by
  simp [byteAt, Ipv4Packet.rawHeader]

theorem ipv4MoreFrags_toBytes (p : Ipv4Packet) (hf : p.frag_field < 8192) :
    ipv4MoreFrags p.toBytes = p.more_frags := by
  rw [ipv4MoreFrags, byteAt_toBytes_head p 6 (by omega) (by omega) (by omega),
    byteAt_rawHeader_6]
  have hq : p.frag_field / 256 < 32 := by omega
  cases hd : p.dont_frag <;> cases hm : p.more_frags <;> simp <;> omega

theorem ipv4FragField_toBytes (p : Ipv4Packet) (hf : p.frag_field < 8192) :
    ipv4FragField p.toBytes = p.frag_field := by
  rw [ipv4FragField, byteAt_toBytes_head p 6 (by omega) (by omega) (by omega),
    byteAt_toBytes_head p 7 (by omega) (by omega) (by omega),
    byteAt_rawHeader_6]
  have h7 : byteAt p.rawHeader 7 = p.frag_field % 256 := by
    simp [byteAt, Ipv4Packet.rawHeader]
  rw [h7]
  have hq : p.frag_field / 256 < 32 := by omega
  cases hd : p.dont_frag <;> cases hm : p.more_frags <;> simp <;> omega

theorem ipv4FragOffset_toBytes (p : Ipv4Packet) (hf : p.frag_field < 8192) :
    ipv4FragOffset p.toBytes = p.frag_field * 8 := by
  rw [ipv4FragOffset, ipv4FragField_toBytes p hf]

theorem ipv4Protocol_toBytes (p : Ipv4Packet) (h : p.protocol < 256) :
    ipv4Protocol p.toBytes = p.protocol := by
  rw [ipv4Protocol, byteAt_toBytes_head p 9 (by omega) (by omega) (by omega)]
  have h9 : byteAt p.rawHeader 9 = p.protocol % 256 := by
    simp [byteAt, Ipv4Packet.rawHeader]
  rw [h9]
  omega

theorem ipv4SrcAddr_toBytes (p : Ipv4Packet) (h : p.src_addr < 4294967296) :
    ipv4SrcAddr p.toBytes = p.src_addr := by
  rw [ipv4SrcAddr, byteAt_toBytes_head p 12 (by omega) (by omega) (by omega),
    byteAt_toBytes_head p 13 (by omega) (by omega) (by omega),
    byteAt_toBytes_head p 14 (by omega) (by omega) (by omega),
    byteAt_toBytes_head p 15 (by omega) (by omega) (by omega)]
  have h12 : byteAt p.rawHeader 12 = p.src_addr / 16777216 % 256 := by
    simp [byteAt, Ipv4Packet.rawHeader]
  have h13 : byteAt p.rawHeader 13 = p.src_addr / 65536 % 256 := by
    simp [byteAt, Ipv4Packet.rawHeader]
  have h14 : byteAt p.rawHeader 14 = p.src_addr / 256 % 256 := by
    simp [byteAt, Ipv4Packet.rawHeader]
  have h15 : byteAt p.rawHeader 15 = p.src_addr % 256 := by
    simp [byteAt, Ipv4Packet.rawHeader]
  rw [h12, h13, h14, h15]
  omega

theorem ipv4DstAddr_toBytes (p : Ipv4Packet) (h : p.dst_addr < 4294967296) :
    ipv4DstAddr p.toBytes = p.dst_addr := by
  rw [ipv4DstAddr, byteAt_toBytes_head p 16 (by omega) (by omega) (by omega),
    byteAt_toBytes_head p 17 (by omega) (by omega) (by omega),
    byteAt_toBytes_head p 18 (by omega) (by omega) (by omega),
    byteAt_toBytes_head p 19 (by omega) (by omega) (by omega)]
  have h16 : byteAt p.rawHeader 16 = p.dst_addr / 16777216 % 256 := by
    simp [byteAt, Ipv4Packet.rawHeader]
  have h17 : byteAt p.rawHeader 17 = p.dst_addr / 65536 % 256 := by
    simp [byteAt, Ipv4Packet.rawHeader]
  have h18 : byteAt p.rawHeader 18 = p.dst_addr / 256 % 256 := by
    simp [byteAt, Ipv4Packet.rawHeader]
  have h19 : byteAt p.rawHeader 19 = p.dst_addr % 256 := by
    simp [byteAt, Ipv4Packet.rawHeader]
  rw [h16, h17, h18, h19]
  omega

theorem ipv4Payload_toBytes (p : Ipv4Packet)
    (h : 20 + p.payload.length < 65536) :
    ipv4Payload p.toBytes = p.payload := by
  rw [ipv4Payload, ipv4TotalLen_toBytes p h, ipv4HeaderLen_toBytes, toBytes_eq]
  have hd : (p.ckHeader ++ p.payload).drop 20 = p.payload := by
    have h20 : (20 : Nat) = p.ckHeader.length := (ckHeader_length p).symm
    rw [h20, List.drop_left]
  rw [hd]
  have hs : 20 + p.payload.length - 20 = p.payload.length := by omega
  rw [hs, List.take_length]

theorem ipv4Valid_toBytes (p : Ipv4Packet)
    (h : 20 + p.payload.length < 65536) : ipv4Valid p.toBytes = true := by
  simp only [ipv4Valid, toBytes_length, ipv4HeaderLen_toBytes,
    ipv4TotalLen_toBytes p h, decide_eq_true_eq]
  omega

theorem fragAt_fields (MTU src dst pid : Nat) (udp : List Nat) (t : Nat) :
    (fragAt MTU src dst pid udp t).ident = pid % 65536
    ∧ (fragAt MTU src dst pid udp t).frag_field = t % 65536 / 8 % 8192
    ∧ (fragAt MTU src dst pid udp t).dont_frag = false
    ∧ (fragAt MTU src dst pid udp t).hop_limit = 64
    ∧ (fragAt MTU src dst pid udp t).protocol = protoUdp
    ∧ (fragAt MTU src dst pid udp t).src_addr = src
    ∧ (fragAt MTU src dst pid udp t).dst_addr = dst
    ∧ (fragAt MTU src dst pid udp t).more_frags = decide (t + MTU < udp.length)
    ∧ (fragAt MTU src dst pid udp t).payload =
        (if t + MTU < udp.length then (udp.drop t).take MTU else udp.drop t) := by
  rw [fragAt]
  split
  · rename_i hcl
    exact ⟨rfl, rfl, rfl, rfl, rfl, rfl, rfl, by simp [hcl,
      Ipv4Packet.set_dont_frag, Ipv4Packet.set_more_frags], rfl⟩
  · rename_i hcl
    exact ⟨rfl, rfl, rfl, rfl, rfl, rfl, rfl, by simp [hcl,
      Ipv4Packet.set_dont_frag, Ipv4Packet.set_more_frags], rfl⟩

theorem fragAt_payload_length (MTU src dst pid : Nat) (udp : List Nat)
    (t : Nat) :
    (fragAt MTU src dst pid udp t).payload.length =
      min MTU (udp.length - t) := by
  obtain ⟨-, -, -, -, -, -, -, -, hp⟩ := fragAt_fields MTU src dst pid udp t
  rw [hp]
  split
  · rename_i hcl
    rw [List.length_take, List.length_drop]
  · rename_i hcl
    rw [List.length_drop]
    omega

theorem list_pigeonhole_mem (n : Nat) (l : List Nat) (h : l.Nodup)
    (hall : ∀ k ∈ l, k < n) (hlen : l.length = n) : ∀ k, k < n → k ∈ l := by
  intro k hk
  by_contra hout
  have hsub : (k :: l) ⊆ List.range n := by
    intro x hx
    rcases hx with _ | hx
    · exact List.mem_range.mpr hk
    · exact List.mem_range.mpr (hall _ (by assumption))
  have hnd : (k :: l).Nodup := List.nodup_cons.mpr ⟨hout, h⟩
  have := (List.subperm_of_subset hnd hsub).length_le
  simp [hlen, List.length_range] at this

theorem list_pigeonhole_missing (n : Nat) (l : List Nat) (h : l.Nodup)
    (hall : ∀ k ∈ l, k < n) (hlen : l.length < n) :
    ∃ k, k < n ∧ k ∉ l := by
  by_contra hno
  push_neg at hno
  have hsub : List.range n ⊆ l := by
    intro x hx
    exact hno x (List.mem_range.mp hx)
  have := (List.subperm_of_subset (List.nodup_range n) hsub).length_le
  rw [List.length_range] at this
  omega

theorem fragRegionStart_lt_stop (MTU L k : Nat) (hM : 0 < MTU)
    (hk : k * MTU < L) :
    fragRegionStart MTU k < fragRegionStop MTU L k := by
  rw [fragRegionStart, fragRegionStop]
  have hs : k * MTU + MTU = (k + 1) * MTU := by ring
  split
  · omega
  · have : k * MTU < min ((k + 1) * MTU) L := by omega
    omega

theorem fragRegion_mono (MTU L k1 k2 : Nat) (hM : 0 < MTU) (h12 : k1 < k2) :
    fragRegionStop MTU L k1 ≤ fragRegionStart MTU k2 := by
  rw [fragRegionStart, fragRegionStop, if_neg (by omega)]
  have hmul : (k1 + 1) * MTU ≤ k2 * MTU := Nat.mul_le_mul_right MTU (by omega)
  have : min ((k1 + 1) * MTU) L ≤ (k1 + 1) * MTU := Nat.min_le_left _ _
  omega

theorem fragRegionStop_le (MTU L k : Nat) :
    fragRegionStop MTU L k ≤ 20 + L := by
  rw [fragRegionStop]
  have := Nat.min_le_right ((k + 1) * MTU) L
  omega

theorem fragRegion_cover (MTU L n : Nat) (hM : 0 < MTU) (hn0 : 2 ≤ n)
    (hn1 : (n - 1) * MTU < L) (hn2 : L ≤ n * MTU) (i : Nat)
    (hi : i < 20 + L) :
    ∃ k, k < n ∧ fragRegionStart MTU k ≤ i ∧ i < fragRegionStop MTU L k := by
  have hL : MTU ≤ L := by
    have : 1 * MTU ≤ (n - 1) * MTU := Nat.mul_le_mul_right MTU (by omega)
    omega
  rcases Nat.lt_or_ge i 20 with h20 | h20
  · refine ⟨0, by omega, ?_, ?_⟩
    · rw [fragRegionStart, if_pos rfl]
      omega
    · rw [fragRegionStop]
      have : min (1 * MTU) L = MTU := by
        rw [Nat.one_mul]
        omega
      omega
  · rcases Nat.lt_or_ge (i - 20) ((n - 1) * MTU) with hA | hB
    · refine ⟨(i - 20) / MTU, ?_, ?_, ?_⟩
      · have hdiv : (i - 20) / MTU < n - 1 :=
          (Nat.div_lt_iff_lt_mul hM).mpr (by omega)
        omega
      · rw [fragRegionStart]
        have hmulle : (i - 20) / MTU * MTU ≤ i - 20 := Nat.div_mul_le_self _ _
        split
        · omega
        · omega
      · rw [fragRegionStop]
        have hdiv : (i - 20) / MTU < n - 1 :=
          (Nat.div_lt_iff_lt_mul hM).mpr (by omega)
        have hq : i - 20 < ((i - 20) / MTU + 1) * MTU := by
          have hdm := Nat.div_add_mod (i - 20) MTU
          have hmod := Nat.mod_lt (i - 20) hM
          have hcomm : MTU * ((i - 20) / MTU) = (i - 20) / MTU * MTU :=
            Nat.mul_comm _ _
          have : ((i - 20) / MTU + 1) * MTU = (i - 20) / MTU * MTU + MTU := by
            ring
          omega
        have hle : ((i - 20) / MTU + 1) * MTU ≤ (n - 1) * MTU :=
          Nat.mul_le_mul_right MTU (by omega)
        have : min (((i - 20) / MTU + 1) * MTU) L =
            ((i - 20) / MTU + 1) * MTU := by omega
        omega
    · refine ⟨n - 1, by omega, ?_, ?_⟩
      · rw [fragRegionStart, if_neg (by omega)]
        omega
      · rw [fragRegionStop]
        have hs : (n - 1 + 1) * MTU = n * MTU := by
          congr 1
          omega
        rw [hs]
        have : min (n * MTU) L = L := by omega
        omega

theorem get_packet_singleton_match (e : FragmentedPacket)
    (ident src dst ts stale : Nat) (hk : e.key = some (ident, src, dst)) :
    FragmentSet.get_packet [e] ident src dst ts stale = some (0, [e]) := by
  rw [FragmentSet.get_packet]
  have h1 : [e].findIdx? (fun x => decide (x.key = some (ident, src, dst))) =
      some 0 := by
    simp [List.findIdx?_cons, hk]
  rw [h1]

theorem get_packet_singleton_empty (e : FragmentedPacket)
    (ident src dst ts stale : Nat) (hk : e.key = none) :
    FragmentSet.get_packet [e] ident src dst ts stale = some (0, [e]) := by
  rw [FragmentSet.get_packet]
  have h1 : [e].findIdx? (fun x => decide (x.key = some (ident, src, dst))) =
      none := by
    simp [List.findIdx?_cons, hk]
  have h2 : [e].findIdx? (fun x => x.is_empty) = some 0 := by
    simp [List.findIdx?_cons, FragmentedPacket.is_empty, hk]
  rw [h1, h2]

theorem frag_data_byte (MTU src dst pid : Nat) (udp : List Nat) (j : Nat)
    (hM : 0 < MTU) (hN : MTU < udp.length) (hj : j * MTU < udp.length)
    (i : Nat) (h1 : fragRegionStart MTU j ≤ i)
    (h2 : i < fragRegionStop MTU udp.length j) :
    byteAt (if j * MTU = 0 then
        (fragAt MTU src dst pid udp (j * MTU)).toBytes.take
          (20 + min MTU (udp.length - j * MTU))
      else (((fragAt MTU src dst pid udp (j * MTU)).toBytes.drop 20).take
          (min MTU (udp.length - j * MTU))))
      (i - fragRegionStart MTU j) =
    assembledByteAt (fragAt MTU src dst pid udp 0).ckHeader udp i := by
  have hpl := fragAt_payload_length MTU src dst pid udp (j * MTU)
  obtain ⟨-, -, -, -, -, -, -, -, hpay⟩ :=
    fragAt_fields MTU src dst pid udp (j * MTU)
  by_cases hj0 : j * MTU = 0
  · have hj' : j = 0 := by
      rcases Nat.mul_eq_zero.mp hj0 with h | h
      · exact h
      · omega
    subst hj'
    rw [if_pos hj0]
    simp only [Nat.zero_mul] at hpl hpay h2 ⊢
    rw [fragRegionStart, if_pos rfl] at h1 ⊢
    simp only [Nat.sub_zero] at hpl ⊢
    have hmin : min MTU udp.length = MTU := Nat.min_eq_left (Nat.le_of_lt hN)
    rw [hmin] at hpl ⊢
    have htb := toBytes_eq (fragAt MTU src dst pid udp 0)
    have hlen20 : (fragAt MTU src dst pid udp 0).toBytes.length = 20 + MTU := by
      rw [toBytes_length, hpl]
    rw [List.take_of_length_le (Nat.le_of_eq hlen20), htb]
    rw [fragRegionStop] at h2
    have hminstop : min ((0 + 1) * MTU) udp.length = MTU := by
      rw [Nat.zero_add, Nat.one_mul]
      omega
    rw [hminstop] at h2
    rw [assembledByteAt]
    rcases Nat.lt_or_ge i 20 with hi20 | hi20
    · rw [if_pos hi20, byteAt_append_left _ _ i (by rw [ckHeader_length]; omega)]
    · rw [if_neg (by omega), byteAt_append_right _ _ i
        (by rw [ckHeader_length]; omega)]
      rw [ckHeader_length]
      rw [hpay, if_pos (by omega : 0 + MTU < udp.length), List.drop_zero]
      rw [byteAt_take_lt _ _ _ (by omega)]
  · rw [if_neg hj0]
    have hjne : j ≠ 0 := by
      intro h
      rw [h, Nat.zero_mul] at hj0
      exact hj0 rfl
    rw [fragRegionStart, if_neg hjne] at h1 ⊢
    rw [fragRegionStop] at h2
    have hsucc : (j + 1) * MTU = j * MTU + MTU := by ring
    have hminstop : min ((j + 1) * MTU) udp.length =
        j * MTU + min MTU (udp.length - j * MTU) := by omega
    rw [hminstop] at h2
    have htb := toBytes_eq (fragAt MTU src dst pid udp (j * MTU))
    have hdrop : (fragAt MTU src dst pid udp (j * MTU)).toBytes.drop 20 =
        (fragAt MTU src dst pid udp (j * MTU)).payload := by
      rw [htb]
      have h20 : (20 : Nat) = (fragAt MTU src dst pid udp (j * MTU)).ckHeader.length :=
        (ckHeader_length _).symm
      rw [h20, List.drop_left]
    rw [hdrop, ← hpl, List.take_length]
    rw [assembledByteAt, if_neg (by omega)]
    rw [hpay]
    split
    · rw [byteAt_take_lt _ _ _ (by omega), byteAt_drop]
      congr 1
      omega
    · rw [byteAt_drop]
      congr 1
      omega

theorem fragBytes_accessors (MTU src dst pid : Nat) (udp : List Nat) (j : Nat)
    (hM : 0 < MTU) (h8 : 8 ∣ MTU)
    (hj : j * MTU < udp.length) (hlen : udp.length + 20 ≤ 65535)
    (hpid : pid < 65536) (hsrc : src < 4294967296) (hdst : dst < 4294967296) :
    ipv4Ident (fragAt MTU src dst pid udp (j * MTU)).toBytes = pid
    ∧ ipv4SrcAddr (fragAt MTU src dst pid udp (j * MTU)).toBytes = src
    ∧ ipv4DstAddr (fragAt MTU src dst pid udp (j * MTU)).toBytes = dst
    ∧ ipv4HeaderLen (fragAt MTU src dst pid udp (j * MTU)).toBytes = 20
    ∧ ipv4FragOffset (fragAt MTU src dst pid udp (j * MTU)).toBytes = j * MTU
    ∧ ipv4MoreFrags (fragAt MTU src dst pid udp (j * MTU)).toBytes =
        decide (j * MTU + MTU < udp.length)
    ∧ ipv4TotalLen (fragAt MTU src dst pid udp (j * MTU)).toBytes =
        20 + min MTU (udp.length - j * MTU)
    ∧ ipv4Payload (fragAt MTU src dst pid udp (j * MTU)).toBytes =
        (fragAt MTU src dst pid udp (j * MTU)).payload
    ∧ (fragAt MTU src dst pid udp (j * MTU)).toBytes.length =
        20 + min MTU (udp.length - j * MTU)
    ∧ ipv4Valid (fragAt MTU src dst pid udp (j * MTU)).toBytes = true := by
  obtain ⟨hid, hff, hdf, hhl, hpr, hsa, hda, hmf, -⟩ :=
    fragAt_fields MTU src dst pid udp (j * MTU)
  have hplen := fragAt_payload_length MTU src dst pid udp (j * MTU)
  have hlt : j * MTU < 65536 := by omega
  have hmod : j * MTU % 65536 = j * MTU := Nat.mod_eq_of_lt hlt
  have hfval : (fragAt MTU src dst pid udp (j * MTU)).frag_field =
      j * MTU / 8 := by
    rw [hff, hmod, Nat.mod_eq_of_lt (by omega)]
  have hsmall : 20 + (fragAt MTU src dst pid udp (j * MTU)).payload.length <
      65536 := by
    rw [hplen]
    omega
  refine ⟨?_, ?_, ?_, ?_, ?_, ?_, ?_, ?_, ?_, ?_⟩
  · rw [ipv4Ident_toBytes _ (by rw [hid]; omega), hid, Nat.mod_eq_of_lt hpid]
  · rw [ipv4SrcAddr_toBytes _ (by rw [hsa]; omega), hsa]
  · rw [ipv4DstAddr_toBytes _ (by rw [hda]; omega), hda]
  · exact ipv4HeaderLen_toBytes _
  · rw [ipv4FragOffset_toBytes _ (by rw [hfval]; omega), hfval,
      Nat.div_mul_cancel (Dvd.dvd.mul_left h8 j)]
  · rw [ipv4MoreFrags_toBytes _ (by rw [hfval]; omega), hmf]
  · rw [ipv4TotalLen_toBytes _ hsmall, hplen]
  · exact ipv4Payload_toBytes _ hsmall
  · rw [toBytes_length, hplen]
  · exact ipv4Valid_toBytes _ hsmall

theorem roundtrip_step (c : Consts) (MTU src dst pid : Nat) (udp : List Nat)
    (cap n : Nat) (hM : 0 < MTU) (h8 : 8 ∣ MTU) (hN : MTU < udp.length)
    (hlen : udp.length + 20 ≤ 65535) (hcap : udp.length + 20 ≤ cap)
    (hpid : pid < 65536) (hsrc : src < 4294967296) (hdst : dst < 4294967296)
    (hn0 : 2 ≤ n) (hn1 : (n - 1) * MTU < udp.length)
    (hn2 : udp.length ≤ n * MTU)
    (done : List Nat) (j t : Nat) (e : FragmentedPacket)
    (hj : j < n) (hjnew : j ∉ done) (hdsub : ∀ k ∈ done, k < n)
    (hdnodup : done.Nodup)
    (hkey : e.key = if done.isEmpty then none else some (pid, src, dst))
    (hranges : e.ranges = done.map (fragRegion MTU udp.length))
    (htot : e.total_len =
      if (n - 1) ∈ done then some (20 + udp.length) else none)
    (hblen : e.buffer.length = cap)
    (hbuf : ∀ k ∈ done, ∀ i, fragRegionStart MTU k ≤ i →
      i < fragRegionStop MTU udp.length k →
      byteAt e.buffer i =
        assembledByteAt (fragAt MTU src dst pid udp 0).ckHeader udp i) :
    (done.length + 1 < n →
      ∃ e', process_ipv4_fragment c
          (fragAt MTU src dst pid udp (j * MTU)).toBytes t [e] =
            (.ok none, [e'])
        ∧ e'.key = some (pid, src, dst)
        ∧ e'.ranges = (done ++ [j]).map (fragRegion MTU udp.length)
        ∧ e'.total_len = (if (n - 1) ∈ done ++ [j] then
            some (20 + udp.length) else none)
        ∧ e'.buffer.length = cap
        ∧ (∀ k ∈ done ++ [j], ∀ i, fragRegionStart MTU k ≤ i →
            i < fragRegionStop MTU udp.length k →
            byteAt e'.buffer i =
              assembledByteAt (fragAt MTU src dst pid udp 0).ckHeader udp i))
    ∧ (done.length + 1 = n →
      ∃ out e', process_ipv4_fragment c
          (fragAt MTU src dst pid udp (j * MTU)).toBytes t [e] =
            (.ok (some out), [e'])
        ∧ out.drop 20 = udp) := by
  obtain ⟨ek, eb, er, et, el⟩ := e
  simp only at hkey hranges htot hblen hbuf
  have hjmtu : j * MTU < udp.length := by
    have : j * MTU ≤ (n - 1) * MTU := Nat.mul_le_mul_right MTU (by omega)
    omega
  obtain ⟨haid, hasrc, hadst, hahl, haoff, hamf, hatl, hapay, halen, havalid⟩ :=
    fragBytes_accessors MTU src dst pid udp j hM h8 hjmtu hlen hpid hsrc hdst
  have hplen : (fragAt MTU src dst pid udp (j * MTU)).payload.length =
      min MTU (udp.length - j * MTU) :=
    fragAt_payload_length MTU src dst pid udp (j * MTU)
  have hgp : FragmentSet.get_packet [(⟨ek, eb, er, et, el⟩ : FragmentedPacket)]
      pid src dst t c.STALE_THRESHOLD =
      some (0, [⟨ek, eb, er, et, el⟩]) := by
    by_cases hde : done.isEmpty
    · refine get_packet_singleton_empty _ _ _ _ _ _ ?_
      rw [hkey, if_pos hde]
    · refine get_packet_singleton_match _ _ _ _ _ _ ?_
      rw [hkey, if_neg hde]
  -- the entry after the is_empty/start step
  have hE1 : (if FragmentedPacket.is_empty ⟨ek, eb, er, et, el⟩ = true then
      FragmentedPacket.start ⟨ek, eb, er, et, el⟩ pid src dst
      else ⟨ek, eb, er, et, el⟩) =
      (⟨some (pid, src, dst), eb, er, et, el⟩ : FragmentedPacket) := by
    by_cases hde : done.isEmpty
    · have hd : done = [] := List.isEmpty_iff.mp hde
      subst hd
      simp only [List.map_nil] at hranges
      simp only [List.not_mem_nil, if_false] at htot
      rw [hkey, if_pos hde] at *
      subst hranges
      subst htot
      simp [FragmentedPacket.is_empty, FragmentedPacket.start]
    · rw [hkey, if_neg hde]
      simp [FragmentedPacket.is_empty]
  -- the total length after the MF=0 step, uniformly
  have hsucc : (j + 1) * MTU = j * MTU + MTU := by ring
  have hminp : j + 1 = n → min MTU (udp.length - j * MTU) =
      udp.length - j * MTU := by
    intro hjn
    have : n * MTU = j * MTU + MTU := by rw [← hjn]; ring
    omega
  have hftl : j + 1 = n →
      fragmentTotalLen (fragAt MTU src dst pid udp (j * MTU)).toBytes =
        20 + udp.length := by
    intro hjn
    rw [fragmentTotalLen, haoff, hatl, hminp hjn]
    have : n * MTU = j * MTU + MTU := by rw [← hjn]; ring
    omega
  have hmfiff : (j * MTU + MTU < udp.length) ↔ j + 1 < n := by
    constructor
    · intro h
      by_contra hcon
      have hjn : j + 1 = n := by omega
      have : n * MTU = j * MTU + MTU := by rw [← hjn]; ring
      omega
    · intro h
      have : (j + 1) * MTU ≤ (n - 1) * MTU := Nat.mul_le_mul_right MTU (by omega)
      omega
  -- the entry handed to add
  have hE2 : (if ipv4MoreFrags (fragAt MTU src dst pid udp (j * MTU)).toBytes =
        true then (⟨some (pid, src, dst), eb, er, et, el⟩ : FragmentedPacket)
      else FragmentedPacket.set_total_len ⟨some (pid, src, dst), eb, er, et, el⟩
        (fragmentTotalLen (fragAt MTU src dst pid udp (j * MTU)).toBytes)) =
      (⟨some (pid, src, dst), eb, er,
        (if (n - 1) ∈ done ++ [j] then some (20 + udp.length) else none),
        el⟩ : FragmentedPacket) := by
    rw [hamf]
    by_cases hjn : j + 1 = n
    · rw [if_neg (by simp; omega)]
      rw [FragmentedPacket.set_total_len, hftl hjn]
      have hmem : (n - 1) ∈ done ++ [j] := by
        have : j = n - 1 := by omega
        simp [this]
      rw [if_pos hmem]
    · have hlt : j + 1 < n := by omega
      rw [if_pos (by simp [hmfiff.mpr hlt])]
      have hmem : ((n - 1) ∈ done ++ [j]) ↔ ((n - 1) ∈ done) := by
        simp only [List.mem_append, List.mem_singleton]
        constructor
        · rintro (h | h)
          · exact h
          · omega
        · intro h
          exact Or.inl h
      rw [htot]
      by_cases hmem2 : (n - 1) ∈ done
      · rw [if_pos hmem2, if_pos (hmem.mpr hmem2)]
      · rw [if_neg hmem2, if_neg (fun hc => hmem2 (hmem.mp hc))]
  -- the bytes the add step copies in
  have hstart_le : fragRegionStart MTU j ≤ 20 + j * MTU := by
    rw [fragRegionStart]
    split <;> omega
  have hstop_le : fragRegionStop MTU udp.length j ≤ 20 + udp.length :=
    fragRegionStop_le MTU udp.length j
  have hregion_len : fragRegionStop MTU udp.length j -
      fragRegionStart MTU j =
      (if j = 0 then 20 else 0) + min MTU (udp.length - j * MTU) := by
    rw [fragRegionStart, fragRegionStop]
    by_cases hj0 : j = 0
    · subst hj0
      simp
    · rw [if_neg hj0, if_neg hj0]
      omega
  have hdataJ_len : (if j * MTU = 0 then
        (fragAt MTU src dst pid udp (j * MTU)).toBytes.take
          (20 + min MTU (udp.length - j * MTU))
      else (((fragAt MTU src dst pid udp (j * MTU)).toBytes.drop 20).take
          (min MTU (udp.length - j * MTU)))).length =
      fragRegionStop MTU udp.length j - fragRegionStart MTU j := by
    rw [hregion_len]
    by_cases hj0 : j * MTU = 0
    · have hj' : j = 0 := by
        rcases Nat.mul_eq_zero.mp hj0 with h | h
        · exact h
        · omega
      rw [if_pos hj0, if_pos hj', List.length_take, halen]
      omega
    · have hj' : j ≠ 0 := by
        intro h
        rw [h, Nat.zero_mul] at hj0
        exact hj0 rfl
      rw [if_neg hj0, if_neg hj', List.length_take, List.length_drop, halen]
      omega
  have hstart_if : (if j * MTU = 0 then 0 else 20 + j * MTU) =
      fragRegionStart MTU j := by
    rw [fragRegionStart]
    by_cases hj0 : j = 0
    · subst hj0
      simp
    · rw [if_neg (by
        intro h
        rcases Nat.mul_eq_zero.mp h with h | h
        · exact hj0 h
        · omega), if_neg hj0]
  have hstartstop : fragRegionStart MTU j < fragRegionStop MTU udp.length j :=
    fragRegionStart_lt_stop MTU udp.length j hM hjmtu
  set D := (if j * MTU = 0 then
      (fragAt MTU src dst pid udp (j * MTU)).toBytes.take
        (20 + min MTU (udp.length - j * MTU))
    else (((fragAt MTU src dst pid udp (j * MTU)).toBytes.drop 20).take
        (min MTU (udp.length - j * MTU)))) with hD
  have hcap3 : fragRegionStart MTU j + D.length ≤ eb.length := by
    rw [hdataJ_len, hblen]
    omega
  have hrng : er ++ [(fragRegionStart MTU j, D.length)] =
      (done ++ [j]).map (fragRegion MTU udp.length) := by
    rw [hranges, List.map_append]
    congr 1
    simp [fragRegion, hdataJ_len]
  have hadd : FragmentedPacket.add
      ⟨some (pid, src, dst), eb, er,
        (if (n - 1) ∈ done ++ [j] then some (20 + udp.length) else none), el⟩
      20 (j * MTU) (min MTU (udp.length - j * MTU))
      (fragAt MTU src dst pid udp (j * MTU)).toBytes t =
      some ⟨some (pid, src, dst),
        writeAt eb (fragRegionStart MTU j) D,
        (done ++ [j]).map (fragRegion MTU udp.length),
        (if (n - 1) ∈ done ++ [j] then some (20 + udp.length) else none),
        t⟩ := by
    rw [FragmentedPacket.add]
    simp only [hstart_if, ← hD]
    rw [if_pos hcap3, hrng]
  -- bytes of the buffer after the write
  have hwlen : (writeAt eb (fragRegionStart MTU j) D).length = cap := by
    rw [writeAt_length _ _ _ hcap3, hblen]
  have hwin : ∀ i, fragRegionStart MTU j ≤ i →
      i < fragRegionStop MTU udp.length j →
      byteAt (writeAt eb (fragRegionStart MTU j) D) i =
        assembledByteAt (fragAt MTU src dst pid udp 0).ckHeader udp i := by
    intro i h1 h2
    rw [byteAt_writeAt_in _ _ _ i h1 (by rw [hdataJ_len]; omega) hcap3]
    rw [hD]
    exact frag_data_byte MTU src dst pid udp j hM hN hjmtu i h1 h2
  have hwout : ∀ i, (i < fragRegionStart MTU j ∨
      fragRegionStop MTU udp.length j ≤ i) →
      byteAt (writeAt eb (fragRegionStart MTU j) D) i = byteAt eb i := by
    intro i hcase
    rcases hcase with h | h
    · exact byteAt_writeAt_before _ _ _ i h hcap3
    · exact byteAt_writeAt_after _ _ _ i (by rw [hdataJ_len]; omega) hcap3
  have hbuf3 : ∀ k ∈ done ++ [j], ∀ i, fragRegionStart MTU k ≤ i →
      i < fragRegionStop MTU udp.length k →
      byteAt (writeAt eb (fragRegionStart MTU j) D) i =
        assembledByteAt (fragAt MTU src dst pid udp 0).ckHeader udp i := by
    intro k hk i h1 h2
    rcases List.mem_append.mp hk with hkd | hkj
    · by_cases hin : fragRegionStart MTU j ≤ i ∧
          i < fragRegionStop MTU udp.length j
      · exact hwin i hin.1 hin.2
      · rw [hwout i (by omega)]
        exact hbuf k hkd i h1 h2
    · have hkj' : k = j := by simpa using hkj
      subst hkj'
      exact hwin i h1 h2
  have hnodup2 : (done ++ [j]).Nodup := by
    rw [List.nodup_append]
    refine ⟨hdnodup, List.nodup_singleton j, ?_⟩
    intro a ha haj
    rw [List.mem_singleton] at haj
    subst haj
    exact hjnew ha
  have hsub2 : ∀ k ∈ done ++ [j], k < n := by
    intro k hk
    rcases List.mem_append.mp hk with h | h
    · exact hdsub k h
    · rw [List.mem_singleton] at h
      omega
  have hlen2 : (done ++ [j]).length = done.length + 1 := by
    rw [List.length_append, List.length_singleton]
  constructor
  · -- incomplete: at least one fragment still missing afterwards
    intro hlt
    have hcheckF : FragmentedPacket.check_contig_range
        ⟨some (pid, src, dst), writeAt eb (fragRegionStart MTU j) D,
         (done ++ [j]).map (fragRegion MTU udp.length),
         (if (n - 1) ∈ done ++ [j] then some (20 + udp.length) else none),
         t⟩ = false := by
      rw [FragmentedPacket.check_contig_range]
      by_cases hmem : (n - 1) ∈ done ++ [j]
      · simp only [if_pos hmem]
        obtain ⟨km, hkmn, hkmout⟩ := list_pigeonhole_missing n (done ++ [j])
          hnodup2 hsub2 (by omega)
        have hkmmtu : km * MTU < udp.length := by
          have : km * MTU ≤ (n - 1) * MTU := Nat.mul_le_mul_right MTU (by omega)
          omega
        have hkmpos := fragRegionStart_lt_stop MTU udp.length km hM hkmmtu
        have hkmstop := fragRegionStop_le MTU udp.length km
        rw [List.all_eq_false]
        refine ⟨fragRegionStart MTU km, List.mem_range.mpr (by omega), ?_⟩
        rw [Bool.not_eq_true, List.any_eq_false]
        intro r hr
        rw [List.mem_map] at hr
        obtain ⟨k, hkmem, hkeq⟩ := hr
        subst hkeq
        have hkn := hsub2 k hkmem
        have hkne : k ≠ km := by
          intro h
          subst h
          exact hkmout hkmem
        have hkmtu : k * MTU < udp.length := by
          have : k * MTU ≤ (n - 1) * MTU := Nat.mul_le_mul_right MTU (by omega)
          omega
        have hkpos := fragRegionStart_lt_stop MTU udp.length k hM hkmtu
        simp only [fragRegion, Bool.and_eq_true, decide_eq_true_eq]
        rcases Nat.lt_or_ge k km with hlt2 | hge2
        · have := fragRegion_mono MTU udp.length k km hM hlt2
          omega
        · have hgt : km < k := by omega
          have := fragRegion_mono MTU udp.length km k hM hgt
          omega
      · simp only [if_neg hmem]
    refine ⟨⟨some (pid, src, dst), writeAt eb (fragRegionStart MTU j) D,
      (done ++ [j]).map (fragRegion MTU udp.length),
      (if (n - 1) ∈ done ++ [j] then some (20 + udp.length) else none), t⟩,
      ?_, rfl, rfl, rfl, hwlen, hbuf3⟩
    simp only [process_ipv4_fragment, haid, hasrc, hadst, hgp,
      List.getD_cons_zero, hE1, hE2, hahl, haoff, hapay, hplen, hadd,
      hcheckF, List.set_cons_zero, Bool.false_eq_true, if_false]
  · -- complete: the last fragment arrives
    intro heqn
    have hall2 : ∀ k, k < n → k ∈ done ++ [j] :=
      list_pigeonhole_mem n (done ++ [j]) hnodup2 hsub2 (by omega)
    have hmem : (n - 1) ∈ done ++ [j] := hall2 _ (by omega)
    have hbufall : ∀ i, i < 20 + udp.length →
        byteAt (writeAt eb (fragRegionStart MTU j) D) i =
          assembledByteAt (fragAt MTU src dst pid udp 0).ckHeader udp i := by
      intro i hi
      obtain ⟨k, hkn, h1, h2⟩ :=
        fragRegion_cover MTU udp.length n hM hn0 hn1 hn2 i hi
      exact hbuf3 k (hall2 k hkn) i h1 h2
    have hcheckT : FragmentedPacket.check_contig_range
        ⟨some (pid, src, dst), writeAt eb (fragRegionStart MTU j) D,
         (done ++ [j]).map (fragRegion MTU udp.length),
         (if (n - 1) ∈ done ++ [j] then some (20 + udp.length) else none),
         t⟩ = true := by
      rw [FragmentedPacket.check_contig_range]
      simp only [if_pos hmem]
      rw [List.all_eq_true]
      intro x hx
      have hxlt := List.mem_range.mp hx
      obtain ⟨k, hkn, h1, h2⟩ :=
        fragRegion_cover MTU udp.length n hM hn0 hn1 hn2 x hxlt
      rw [List.any_eq_true]
      refine ⟨fragRegion MTU udp.length k,
        List.mem_map_of_mem _ (hall2 k hkn), ?_⟩
      have hkmtu : k * MTU < udp.length := by
        have : k * MTU ≤ (n - 1) * MTU := Nat.mul_le_mul_right MTU (by omega)
        omega
      have hkpos := fragRegionStart_lt_stop MTU udp.length k hM hkmtu
      simp only [fragRegion, Bool.and_eq_true, decide_eq_true_eq]
      exact ⟨h1, by omega⟩
    have hfront : FragmentedPacket.front
        (⟨some (pid, src, dst), writeAt eb (fragRegionStart MTU j) D,
         (done ++ [j]).map (fragRegion MTU udp.length),
         (if (n - 1) ∈ done ++ [j] then some (20 + udp.length) else none),
         t⟩ : FragmentedPacket) = some (20 + udp.length) := by
      rw [FragmentedPacket.front]
      simp only [if_pos hmem]
    have hA0 : assembledByteAt (fragAt MTU src dst pid udp 0).ckHeader udp 0 =
        69 := by
      rw [assembledByteAt, if_pos (by omega),
        byteAt_ckHeader_ne _ 0 (by omega) (by omega)]
      simp [byteAt, Ipv4Packet.rawHeader]
    have hplen0 : (fragAt MTU src dst pid udp 0).payload.length = MTU := by
      rw [fragAt_payload_length, Nat.sub_zero, Nat.min_eq_left (Nat.le_of_lt hN)]
    have htl0 : (fragAt MTU src dst pid udp 0).total_len = 20 + MTU := by
      rw [Ipv4Packet.total_len, hplen0]
    have hA2 : assembledByteAt (fragAt MTU src dst pid udp 0).ckHeader udp 2 =
        (20 + MTU) / 256 % 256 := by
      rw [assembledByteAt, if_pos (by omega),
        byteAt_ckHeader_ne _ 2 (by omega) (by omega)]
      have hb : byteAt (fragAt MTU src dst pid udp 0).rawHeader 2 =
          (fragAt MTU src dst pid udp 0).total_len / 256 % 256 := by
        simp [byteAt, Ipv4Packet.rawHeader]
      rw [hb, htl0]
    have hA3 : assembledByteAt (fragAt MTU src dst pid udp 0).ckHeader udp 3 =
        (20 + MTU) % 256 := by
      rw [assembledByteAt, if_pos (by omega),
        byteAt_ckHeader_ne _ 3 (by omega) (by omega)]
      have hb : byteAt (fragAt MTU src dst pid udp 0).rawHeader 3 =
          (fragAt MTU src dst pid udp 0).total_len % 256 := by
        simp [byteAt, Ipv4Packet.rawHeader]
      rw [hb, htl0]
    have hvalidT : ipv4Valid
        ((writeAt eb (fragRegionStart MTU j) D).take (20 + udp.length)) =
        true := by
      have hhl : ipv4HeaderLen
          ((writeAt eb (fragRegionStart MTU j) D).take (20 + udp.length)) =
          20 := by
        rw [ipv4HeaderLen, byteAt_take_lt _ _ _ (by omega),
          hbufall 0 (by omega), hA0]
      have htlt : ipv4TotalLen
          ((writeAt eb (fragRegionStart MTU j) D).take (20 + udp.length)) =
          20 + MTU := by
        rw [ipv4TotalLen, byteAt_take_lt _ _ _ (by omega),
          byteAt_take_lt _ _ _ (by omega), hbufall 2 (by omega),
          hbufall 3 (by omega), hA2, hA3, two_bytes_roundtrip _ (by omega)]
      simp only [ipv4Valid, hhl, htlt, List.length_take, hwlen,
        decide_eq_true_eq]
      omega
    have hmod : (20 + udp.length) % 65536 = 20 + udp.length :=
      Nat.mod_eq_of_lt (by omega)
    have hBlen : (fillIpv4Checksum (setTotalLenBytes
        (writeAt eb (fragRegionStart MTU j) D) (20 + udp.length))).length =
        cap := by
      simp only [fillIpv4Checksum, setTotalLenBytes, List.length_set]
      exact hwlen
    have hBbyte : ∀ q, q < udp.length →
        byteAt (fillIpv4Checksum (setTotalLenBytes
          (writeAt eb (fragRegionStart MTU j) D) (20 + udp.length))) (20 + q) =
        byteAt udp q := by
      intro q hq
      simp only [fillIpv4Checksum, setTotalLenBytes]
      rw [byteAt_set_ne _ 11 _ (by omega), byteAt_set_ne _ 10 _ (by omega),
        byteAt_set_ne _ 3 _ (by omega), byteAt_set_ne _ 2 _ (by omega)]
      rw [hbufall (20 + q) (by omega), assembledByteAt, if_neg (by omega)]
      congr 1
      omega
    have hout : ((fillIpv4Checksum (setTotalLenBytes
        (writeAt eb (fragRegionStart MTU j) D) (20 + udp.length))).take
          (20 + udp.length)).drop 20 = udp := by
      apply List.ext_getElem
      · rw [List.length_drop, List.length_take, hBlen]
        omega
      · intro q h1 h2
        rw [← List.getD_eq_getElem _ 0 h1, ← List.getD_eq_getElem _ 0 h2]
        show byteAt _ q = byteAt udp q
        rw [byteAt_drop, byteAt_take_lt _ _ _ (by omega)]
        exact hBbyte q h2
    refine ⟨(fillIpv4Checksum (setTotalLenBytes
        (writeAt eb (fragRegionStart MTU j) D) (20 + udp.length))).take
          (20 + udp.length),
      FragmentedPacket.reset ⟨some (pid, src, dst),
        fillIpv4Checksum (setTotalLenBytes
          (writeAt eb (fragRegionStart MTU j) D) (20 + udp.length)),
        (done ++ [j]).map (fragRegion MTU udp.length),
        (if (n - 1) ∈ done ++ [j] then some (20 + udp.length) else none), t⟩,
      ?_, hout⟩
    simp only [process_ipv4_fragment, haid, hasrc, hadst, hgp,
      List.getD_cons_zero, hE1, hE2, hahl, haoff, hapay, hplen, hadd,
      hcheckT, hfront, hmod, hvalidT, List.set_cons_zero, if_true]

theorem processFragments_cons_ok (c : Consts) (p q : List Nat)
    (ps : List (List Nat)) (fs fs' : FragmentSet) (r : Option (List Nat))
    (t : Nat) (h : process_ipv4_fragment c p t fs = (.ok r, fs')) :
    processFragments c (p :: q :: ps) fs t =
      processFragments c (q :: ps) fs' (t + 1) := by
  simp only [processFragments, h]

theorem processFragments_last (c : Consts) (p : List Nat) (fs fs' : FragmentSet)
    (r : Option (List Nat)) (t : Nat)
    (h : process_ipv4_fragment c p t fs = (.ok r, fs')) :
    processFragments c [p] fs t = (.ok r, fs') := by
  simp only [processFragments, h]

theorem roundtrip_aux (c : Consts) (MTU src dst pid : Nat) (udp : List Nat)
    (cap n : Nat) (hM : 0 < MTU) (h8 : 8 ∣ MTU) (hN : MTU < udp.length)
    (hlen : udp.length + 20 ≤ 65535) (hcap : udp.length + 20 ≤ cap)
    (hpid : pid < 65536) (hsrc : src < 4294967296) (hdst : dst < 4294967296)
    (hn0 : 2 ≤ n) (hn1 : (n - 1) * MTU < udp.length)
    (hn2 : udp.length ≤ n * MTU) :
    ∀ (rest done : List Nat) (e : FragmentedPacket) (t : Nat),
      (done ++ rest).Nodup → (∀ k ∈ done ++ rest, k < n) →
      (done ++ rest).length = n → rest ≠ [] →
      e.key = (if done.isEmpty then none else some (pid, src, dst)) →
      e.ranges = done.map (fragRegion MTU udp.length) →
      e.total_len = (if (n - 1) ∈ done then some (20 + udp.length) else none) →
      e.buffer.length = cap →
      (∀ k ∈ done, ∀ i, fragRegionStart MTU k ≤ i →
        i < fragRegionStop MTU udp.length k →
        byteAt e.buffer i =
          assembledByteAt (fragAt MTU src dst pid udp 0).ckHeader udp i) →
      ∃ out e', processFragments c
          (rest.map fun j => (fragAt MTU src dst pid udp (j * MTU)).toBytes)
          [e] t = (.ok (some out), [e'])
        ∧ out.drop 20 = udp := by
  intro rest
  induction rest with
  | nil =>
    intro done e t _ _ _ hne _ _ _ _ _
    exact absurd rfl hne
  | cons j ps ih =>
    intro done e t hnd hsub hlen' _ hkey hranges htot hblen hbuf
    have hnd' := hnd
    rw [List.nodup_append] at hnd'
    obtain ⟨hdnodup, hjps, hdisj⟩ := hnd'
    have hjd : j ∉ done := fun h => hdisj h (List.mem_cons_self j ps)
    have hjn : j < n :=
      hsub j (List.mem_append_right done (List.mem_cons_self j ps))
    have hdsub : ∀ k ∈ done, k < n := fun k hk =>
      hsub k (List.mem_append_left _ hk)
    obtain ⟨hstep1, hstep2⟩ := roundtrip_step c MTU src dst pid udp cap n hM h8
      hN hlen hcap hpid hsrc hdst hn0 hn1 hn2 done j t e hjn hjd hdsub hdnodup
      hkey hranges htot hblen hbuf
    cases ps with
    | nil =>
      have hle : done.length + 1 = n := by simpa using hlen'
      obtain ⟨out, e', heq, hdrop⟩ := hstep2 hle
      exact ⟨out, e', processFragments_last c _ [e] [e'] (some out) t heq,
        hdrop⟩
    | cons q qs =>
      have hlt : done.length + 1 < n := by
        simp only [List.length_append, List.length_cons] at hlen'
        omega
      obtain ⟨e', heq, hkey', hranges', htot', hblen', hbuf'⟩ := hstep1 hlt
      have hassoc : done ++ [j] ++ q :: qs = done ++ j :: q :: qs := by
        simp
      have hie : (done ++ [j]).isEmpty = false := by
        cases done <;> rfl
      obtain ⟨out, e2, heq2, hdrop2⟩ := ih (done ++ [j]) e' (t + 1)
        (by rw [hassoc]; exact hnd)
        (by rw [hassoc]; exact hsub)
        (by rw [hassoc]; exact hlen')
        (by simp)
        (by rw [hkey', hie]; simp)
        hranges' htot' hblen' hbuf'
      have hstepeq : processFragments c ((j :: q :: qs).map
          (fun j => (fragAt MTU src dst pid udp (j * MTU)).toBytes)) [e] t =
          processFragments c ((q :: qs).map
          (fun j => (fragAt MTU src dst pid udp (j * MTU)).toBytes))
            [e'] (t + 1) :=
        processFragments_cons_ok c _ _ _ _ _ _ _ heq
      refine ⟨out, e2, ?_, hdrop2⟩
      rw [hstepeq]
      exact heq2

/-- C2: fragment-then-reassemble is the identity.  For every UDP datagram
longer than `MTU_UDP` (with 8-byte-aligned MTU, total size within the IPv4
16-bit length field, and a reassembly buffer large enough), feeding the
packets emitted by `fragment_large_udp_packet` to `process_ipv4_fragment`
in ANY arrival order (a permutation of the fragment list) with one free
table slot yields an assembled datagram whose bytes past the 20-byte IPv4
header are exactly the original UDP packet. -/
theorem fragment_reassemble_roundtrip (c : Consts) (udp : List Nat)
    (src dst pid fresh t0 cap : Nat) (σ : List Nat)
    (hM : 0 < c.MTU_UDP) (h8 : 8 ∣ c.MTU_UDP) (hN : c.MTU_UDP < udp.length)
    (hlen : udp.length + 20 ≤ 65535) (hcap : udp.length + 20 ≤ cap)
    (hpid : pid < 65536) (hfresh : fresh < 65536)
    (hsrc : src < 4294967296) (hdst : dst < 4294967296)
    (hperm : σ.Perm (List.range
      (fragment_large_udp_packet c udp src dst pid fresh).length)) :
    ∃ out e', processFragments c
        (σ.map fun j =>
          ((fragment_large_udp_packet c udp src dst pid fresh).getD j
            default).toBytes)
        [emptyEntry cap] t0 = (.ok (some out), [e'])
      ∧ out.drop 20 = udp := by
  set n := (fragment_large_udp_packet c udp src dst pid fresh).length with hn
  have hn0 : 2 ≤ n :=
    fragment_length_ge_two c udp src dst pid fresh (Nat.le_of_lt hN)
  have hiff := fragment_length_iff c udp src dst pid fresh hM hN
  have hn1 : (n - 1) * c.MTU_UDP < udp.length := by
    have h := (hiff (n - 2)).mp (by omega)
    have he : n - 2 + 1 = n - 1 := by omega
    rwa [he] at h
  have hn2 : udp.length ≤ n * c.MTU_UDP := by
    by_contra hcon
    push_neg at hcon
    have h := (hiff (n - 1)).mpr (by
      have he : n - 1 + 1 = n := by omega
      rw [he]
      exact hcon)
    omega
  have hσlen : σ.length = n := by rw [hperm.length_eq, List.length_range]
  have hσnd : σ.Nodup := hperm.nodup_iff.mpr (List.nodup_range _)
  have hσmem : ∀ k ∈ σ, k < n := by
    intro k hk
    exact List.mem_range.mp (hperm.mem_iff.mp hk)
  have hσne : σ ≠ [] := by
    intro h
    rw [h] at hσlen
    simp at hσlen
    omega
  set pid' := if pid = 0 then fresh else pid with hpid'
  have hpid'lt : pid' < 65536 := by
    rw [hpid']
    split
    · exact hfresh
    · exact hpid
  have hmapeq : σ.map (fun j =>
      ((fragment_large_udp_packet c udp src dst pid fresh).getD j
        default).toBytes) =
      σ.map (fun j => (fragAt c.MTU_UDP src dst pid' udp
        (j * c.MTU_UDP)).toBytes) := by
    apply List.map_congr_left
    intro j hj
    have hjn : j < n := hσmem j hj
    have h := fragment_getElem c udp src dst pid fresh hM hN (by omega) j
      (by omega)
    rw [List.getD_eq_getElem?_getD, h, Option.getD_some, ← hpid']
  rw [hmapeq]
  exact roundtrip_aux c c.MTU_UDP src dst pid' udp cap n hM h8 hN hlen hcap
    hpid'lt hsrc hdst hn0 hn1 hn2 σ [] (emptyEntry cap) t0
    (by simpa using hσnd)
    (by intro k hk; exact hσmem k (by simpa using hk))
    (by simpa using hσlen) hσne
    (by simp [emptyEntry])
    (by simp [emptyEntry])
    (by simp [emptyEntry])
    (by simp [emptyEntry])
    (by intro k hk; simp at hk)

/-- Witness for C2: the 20-byte sample UDP packet with `MTU_UDP = 8`
fragments into three packets; delivered in the order 3rd, 1st, 2nd they
reassemble to the original. -/
theorem fragment_reassemble_roundtrip_witness :
    ∃ out e', processFragments cEx
        ([2, 0, 1].map fun j =>
          ((fragment_large_udp_packet cEx udpEx 1 2 3 4).getD j
            default).toBytes)
        [emptyEntry 64] 5 = (.ok (some out), [e'])
      ∧ out.drop 20 = udpEx := by
  have hlen3 : (fragment_large_udp_packet cEx udpEx 1 2 3 4).length = 3 := by
    simp [fragment_large_udp_packet, cEx, udpEx, fragmentRest_step,
      fragmentRest_last]
  exact fragment_reassemble_roundtrip cEx udpEx 1 2 3 4 5 64 [2, 0, 1]
    (by decide) (by decide) (by decide) (by decide) (by decide) (by decide)
    (by decide) (by decide) (by decide)
    (by rw [hlen3]; decide)

end Rustwall
